import Mathlib

/-!
Echo effect (`src/effects/Echo.cpp`): delay line and block processing

A shallow embedding of `EffectEcho::ProcessInitialize`, `EffectEcho::ProcessFinalize`
and `EffectEcho::ProcessBlock`.

The sample type `α` of the embedding is arbitrary: a theorem states the laws of
arithmetic it uses.  `FloatVal` is the arithmetic of the program itself (`float`
samples, `double` decay, IEEE 754 round-to-nearest-even); the sample rate and the
delay time are the rational values of the `double` members.
-/

namespace Echo

/-- The data members of `EffectEcho` that the processing code touches
(`mSampleRate` is inherited from `Effect`).  `history` is `none` for a null
`Floats` pointer and `some buf` for an allocated array with elements `buf`. -/
structure EffectEcho (α : Type) where
  mSampleRate : ℚ
  delay : ℚ
  decay : α
  history : Option (List α)
  histPos : Nat
  histLen : Nat
deriving DecidableEq

variable {α : Type}

/-- One iteration of the `for` loop of `ProcessBlock` together with its increment
`histPos++`: the cursor is reset when it equals `histLen`, then
`history[histPos] = obuf[i] = ibuf[i] + history[histPos] * decay`.
The result is `none` when `history` is null or `histPos` is outside the array. -/
def loopBody [Add α] [Mul α] (e : EffectEcho α) (x : α) : Option (α × EffectEcho α) :=
  let p := if e.histPos = e.histLen then 0 else e.histPos
  match e.history with
  | none => none
  | some buf =>
    match buf[p]? with
    | none => none
    | some h =>
      let y := x + h * e.decay
      some (y, { e with history := some (buf.set p y), histPos := p + 1 })

/-- The `for` loop of `ProcessBlock` over the input samples `ibuf[0..blockLen)`;
returns the samples written to `obuf` and the state left behind. -/
def loop [Add α] [Mul α] (e : EffectEcho α) : List α → Option (List α × EffectEcho α)
  | [] => some ([], e)
  | x :: xs =>
    match loopBody e x with
    | none => none
    | some (y, e1) =>
      match loop e1 xs with
      | none => none
      | some (ys, e2) => some (y :: ys, e2)

/-- `EffectEcho::ProcessBlock` on one channel: `ibuf` holds the `blockLen` input
samples; the result is the returned count (`blockLen`), the output block and the
state after the call. -/
def ProcessBlock [Add α] [Mul α] (e : EffectEcho α) (ibuf : List α) :
    Option (Nat × List α × EffectEcho α) :=
  match loop e ibuf with
  | none => none
  | some (obuf, e1) => some (ibuf.length, obuf, e1)

/-- Rounding of a rational to the nearest integer, ties to the even integer. -/
def roundHalfEven (m : ℚ) : Int :=
  if m - ⌊m⌋ < 1 / 2 then ⌊m⌋
  else if 1 / 2 < m - ⌊m⌋ then ⌊m⌋ + 1
  else if ⌊m⌋ % 2 = 0 then ⌊m⌋ else ⌊m⌋ + 1

/-- Exponent of the unit in the last place at `q` in the binary floating-point format
with `prec` significant bits and least normal exponent `emin` (below `2 ^ emin` the
format is subnormal and the unit stays fixed). -/
def ulpExponent (prec emin : Int) (q : ℚ) : Int :=
  max (Int.log 2 |q|) emin - (prec - 1)

/-- IEEE 754 round-to-nearest-even of the exact value `q` into the binary format with
`prec` significant bits and least normal exponent `emin`, before the overflow
test. -/
def roundBinary (prec emin : Int) (q : ℚ) : ℚ :=
  if q = 0 then 0
  else (roundHalfEven (q / (2 : ℚ) ^ ulpExponent prec emin q) : ℚ)
    * (2 : ℚ) ^ ulpExponent prec emin q

/-- Rounding to `double` (binary64). -/
def roundDouble (q : ℚ) : ℚ := roundBinary 53 (-1022) q

/-- Rounding to `float` (binary32). -/
def roundFloat (q : ℚ) : ℚ := roundBinary 24 (-126) q

/-- A value of the floating-point arithmetic of `ProcessBlock`: a finite number, an
infinity with its sign, or a NaN.  The two signed zeros are identified. -/
inductive FloatVal where
  | fin (q : ℚ)
  | inf (negative : Bool)
  | nan
deriving DecidableEq

/-- The `double` delivered by an operation whose exact result is `q`: the rounded
value, or an infinity when the rounded value is beyond the largest `double`. -/
def doubleResult (q : ℚ) : FloatVal :=
  if (2 : ℚ) ^ 1024 ≤ |roundDouble q| then FloatVal.inf (decide (q < 0))
  else FloatVal.fin (roundDouble q)

/-- The conversion of a `double` to `float` made by the assignment to `obuf[i]`. -/
def toFloat32 : FloatVal → FloatVal
  | FloatVal.fin q =>
    if (2 : ℚ) ^ 128 ≤ |roundFloat q| then FloatVal.inf (decide (q < 0))
    else FloatVal.fin (roundFloat q)
  | v => v

/-- The product in `double`, as in `history[histPos] * decay`. -/
def mulDouble : FloatVal → FloatVal → FloatVal
  | FloatVal.fin a, FloatVal.fin b => doubleResult (a * b)
  | FloatVal.fin a, FloatVal.inf s =>
    if a = 0 then FloatVal.nan else FloatVal.inf (xor s (decide (a < 0)))
  | FloatVal.inf s, FloatVal.fin b =>
    if b = 0 then FloatVal.nan else FloatVal.inf (xor s (decide (b < 0)))
  | FloatVal.inf s, FloatVal.inf t => FloatVal.inf (xor s t)
  | _, _ => FloatVal.nan

/-- The sum in `double`, as in `ibuf[i] + ...`. -/
def addDouble : FloatVal → FloatVal → FloatVal
  | FloatVal.fin a, FloatVal.fin b => doubleResult (a + b)
  | FloatVal.fin _, FloatVal.inf s => FloatVal.inf s
  | FloatVal.inf s, FloatVal.fin _ => FloatVal.inf s
  | FloatVal.inf s, FloatVal.inf t => if s = t then FloatVal.inf s else FloatVal.nan
  | _, _ => FloatVal.nan

instance : Zero FloatVal := ⟨FloatVal.fin 0⟩

instance : One FloatVal := ⟨FloatVal.fin 1⟩

/-- In `history[histPos] * decay` the sample is promoted to `double` and the product
is a `double`. -/
instance : Mul FloatVal := ⟨mulDouble⟩

/-- In `history[histPos] = obuf[i] = ibuf[i] + ...` the sum is taken in `double` and
the assignment converts it to `float`: `a + b` is the stored `float`. -/
instance : Add FloatVal := ⟨fun a b => toFloat32 (addDouble a b)⟩

/-- A finite value that a `float` can hold: `n * 2 ^ u` with a significand below
`2 ^ 24`, an exponent not below that of the least subnormal, and a magnitude below
`2 ^ 128`. -/
def IsFloat32 (v : FloatVal) : Prop :=
  ∃ n u : Int, |(n : ℚ)| < (2 : ℚ) ^ (24 : Int) ∧ -149 ≤ u ∧
    |(n : ℚ) * (2 : ℚ) ^ u| < (2 : ℚ) ^ 128 ∧ v = FloatVal.fin ((n : ℚ) * (2 : ℚ) ^ u)

/-- A value that a `float` can hold: a finite `float`, an infinity or a NaN. -/
def IsFloatValue (v : FloatVal) : Prop :=
  v = FloatVal.nan ∨ (∃ s, v = FloatVal.inf s) ∨ IsFloat32 v

/-- Modelled from the spec: the `sampleCount` type (a 64-bit signed count of
samples) and its conversion from a floating value are declared outside this file.
The requested length is "expressed in a sample-count domain that may itself have a
maximum representable value"; the cast `(sampleCount)(mSampleRate * delay)` is the
conversion of a floating value to that integer type, which discards the fractional
part (the "floor" of the spec for a non-negative product) and has no defined
result (`none`) when the integer part does not fit 64 signed bits. -/
def sampleCount_ofDouble (d : ℚ) : Option Int :=
  let t : Int := if 0 ≤ d then ⌊d⌋ else ⌈d⌉
  if -(2 : Int) ^ 63 ≤ t ∧ t < (2 : Int) ^ 63 then some t else none

/-- The conversion `static_cast<size_t>(v)` of a 64-bit signed value to the unsigned
buffer-size type of `sizeBits` bits: reduction modulo `2 ^ sizeBits`. -/
def static_cast_size_t (sizeBits : Nat) (v : Int) : Nat :=
  (v % (2 : Int) ^ sizeBits).toNat

/-- Modelled from the spec: the comparison `sampleCount != size_t` uses operators of
`sampleCount` that are declared outside this file.  "If the requested length cannot
be represented exactly in the buffer's sizing domain (i.e., would
overflow/truncate), this is treated as an allocation failure": the two counts are
compared as integers. -/
def sampleCount_ne (requested : Int) (len : Nat) : Bool :=
  decide (requested ≠ (len : Int))

/-- Modelled from the spec: `Floats::reinit(count, true)` is declared outside this
file.  It "attempts to allocate a zero-initialized buffer of that length";
`canAlloc count` tells whether the allocation of `count` samples succeeds.  A failed
allocation throws `std::bad_alloc` (`none`) before the array is touched. -/
def reinit [Zero α] (canAlloc : Nat → Bool) (count : Nat) : Option (List α) :=
  if canAlloc count then some (List.replicate count 0) else none

/-- What a call of `ProcessInitialize` leaves behind: the returned `bool`, whether
the message box "Requested value exceeds memory capacity." was shown, and the
state of the effect. -/
structure InitResult (α : Type) where
  result : Bool
  message : Bool
  state : EffectEcho α
deriving DecidableEq

/-- `EffectEcho::ProcessInitialize`.  `sizeBits` is the width of `size_t` and
`canAlloc` the allocator of the platform.  The product `mSampleRate * delay` is a
`double`: the exact product rounded by `roundDouble`.  The value is `none` when the
conversion of that `double` to `sampleCount` is undefined. -/
def ProcessInitialize [Zero α] (sizeBits : Nat) (canAlloc : Nat → Bool) (e : EffectEcho α) :
    Option (InitResult α) :=
  if e.delay = 0 then
    some { result := false, message := false, state := e }
  else
    let e1 := { e with histPos := 0 }
    match sampleCount_ofDouble (roundDouble (e.mSampleRate * e.delay)) with
    | none => none
    | some requestedHistLen =>
      let e2 := { e1 with histLen := static_cast_size_t sizeBits requestedHistLen }
      if sampleCount_ne requestedHistLen e2.histLen then
        some { result := false, message := true, state := e2 }
      else
        match (reinit canAlloc e2.histLen : Option (List α)) with
        | none => some { result := false, message := true, state := e2 }
        | some buf =>
          let e3 := { e2 with history := some buf }
          some { result := e3.history.isSome, message := false, state := e3 }

/-- `EffectEcho::ProcessFinalize`: `history.reset()`, then `return true`. -/
def ProcessFinalize (e : EffectEcho α) : Bool × EffectEcho α :=
  (true, { e with history := none })

/-- A state whose history array is allocated with exactly `histLen` samples,
`histLen ≥ 1`, and whose cursor is at most `histLen`. -/
def WellFormed (e : EffectEcho α) : Prop :=
  (∃ buf, e.history = some buf ∧ buf.length = e.histLen) ∧ 1 ≤ e.histLen ∧ e.histPos ≤ e.histLen

/-- The state right after a successful initialisation with `L` samples of history:
`L` zeros, cursor `0`. -/
def Fresh [Zero α] (e : EffectEcho α) (L : Nat) : Prop :=
  e.history = some (List.replicate L 0) ∧ e.histPos = 0 ∧ e.histLen = L

/-- The buffer cell addressed by the loop body for a stored cursor `pos`. -/
def cell (L pos : Nat) : Nat := if pos = L then 0 else pos

/-- The unit impulse of length `N`. -/
def impulse [Zero α] [One α] (N : Nat) : List α :=
  (List.range N).map fun i => if i = 0 then 1 else 0

/-- The loop of `ProcessBlock` on a bare buffer of `L` samples and a cursor: the
outputs, the final buffer and the final cursor.  It agrees with `loop` on every
well-formed state (`loop_eq_run`). -/
def run [Zero α] [Add α] [Mul α] (L : Nat) (d : α) :
    List α → Nat → List α → List α × List α × Nat
  | buf, pos, [] => ([], buf, pos)
  | buf, pos, x :: xs =>
    let y := x + buf.getD (cell L pos) 0 * d
    let r := run L d (buf.set (cell L pos) y) (cell L pos + 1) xs
    (y :: r.1, r.2.1, r.2.2)

/-- Successive calls of `ProcessBlock` made by the host on consecutive blocks of one
channel: the output blocks in order and the state after the last call. -/
def ProcessBlocks [Add α] [Mul α] (e : EffectEcho α) :
    List (List α) → Option (List (List α) × EffectEcho α)
  | [] => some ([], e)
  | b :: bs =>
    match ProcessBlock e b with
    | none => none
    | some (_, obuf, e1) =>
      match ProcessBlocks e1 bs with
      | none => none
      | some (obufs, e2) => some (obuf :: obufs, e2)

/-- The `DelayLineState` of the specification: a buffer, its length and a write
cursor. -/
structure DelayLineState (α : Type) where
  buffer : List α
  length : Nat
  writeCursor : Nat
deriving DecidableEq

/-- Reference algorithm, written after the four steps of the specification for one
sample: read `h = buffer[writeCursor]`, compute `output = input + h * decay`, write
`buffer[writeCursor] = output`, advance `writeCursor = (writeCursor + 1) mod length`.
The result is `none` when the cursor is outside the buffer. -/
def specStep [Add α] [Mul α] (decay : α) (s : DelayLineState α) (x : α) :
    Option (α × DelayLineState α) :=
  match s.buffer[s.writeCursor]? with
  | none => none
  | some h =>
    let y := x + h * decay
    some (y, { s with buffer := s.buffer.set s.writeCursor y,
                      writeCursor := (s.writeCursor + 1) % s.length })

/-- Reference algorithm of the specification on one block: `specStep` for `i` in
`0..N`. -/
def specProcessBlock [Add α] [Mul α] (decay : α) (s : DelayLineState α) :
    List α → Option (List α × DelayLineState α)
  | [] => some ([], s)
  | x :: xs =>
    match specStep decay s x with
    | none => none
    | some (y, s1) =>
      match specProcessBlock decay s1 xs with
      | none => none
      | some (ys, s2) => some (y :: ys, s2)

/-- Reference algorithm of the specification on consecutive blocks. -/
def specProcessBlocks [Add α] [Mul α] (decay : α) (s : DelayLineState α) :
    List (List α) → Option (List (List α) × DelayLineState α)
  | [] => some ([], s)
  | b :: bs =>
    match specProcessBlock decay s b with
    | none => none
    | some (obuf, s1) =>
      match specProcessBlocks decay s1 bs with
      | none => none
      | some (obufs, s2) => some (obuf :: obufs, s2)

/-- The correspondence between a state of the code and a state of the reference
algorithm for a history of `L` samples: equal buffers of `L` samples, code cursor
at most `L`, reference cursor below `L`, cursors congruent modulo `L`. -/
def Refines (L : Nat) (e : EffectEcho α) (s : DelayLineState α) : Prop :=
  e.histLen = L ∧ s.length = L ∧ e.history = some s.buffer ∧ s.buffer.length = L ∧
    e.histPos ≤ L ∧ s.writeCursor < L ∧ e.histPos % L = s.writeCursor % L

/-! ## The loop on well-formed states -/

theorem getD_set_self [Zero α] (buf : List α) (i : Nat) (v : α) (h : i < buf.length) :
    (buf.set i v).getD i 0 = v := by
  rw [List.getD_eq_getElem?_getD, List.getElem?_set_self h]; rfl

theorem getD_set_other [Zero α] (buf : List α) (i j : Nat) (v : α) (h : i ≠ j) :
    (buf.set i v).getD j 0 = buf.getD j 0 := by
  rw [List.getD_eq_getElem?_getD, List.getD_eq_getElem?_getD, List.getElem?_set_ne h]

theorem shift_mod (L c m : Nat) (hc : c < L) (hm : m + 1 < L) : (c + 1 + m) % L ≠ c := by
  by_cases h : c + 1 + m < L
  · rw [Nat.mod_eq_of_lt h]; omega
  · rw [Nat.mod_eq_sub_mod (by omega), Nat.mod_eq_of_lt (by omega)]; omega

section Basic

variable [Zero α] [Add α] [Mul α]

theorem cell_lt {L pos : Nat} (hL : 1 ≤ L) (hp : pos ≤ L) : cell L pos < L := by
  unfold cell
  split_ifs with h
  · omega
  · omega

theorem cell_eq_mod {L pos : Nat} (hL : 1 ≤ L) (hp : pos ≤ L) : cell L pos = pos % L := by
  unfold cell
  split_ifs with h
  · subst h; simp
  · rw [Nat.mod_eq_of_lt (by omega)]

theorem run_length_out (L : Nat) (d : α) (xs : List α) :
    ∀ (buf : List α) (pos : Nat), (run L d buf pos xs).1.length = xs.length := by
  induction xs with
  | nil => intro buf pos; simp [run]
  | cons x xs ih => intro buf pos; simp [run, ih]

theorem run_length_buf (L : Nat) (d : α) (xs : List α) :
    ∀ (buf : List α) (pos : Nat), (run L d buf pos xs).2.1.length = buf.length := by
  induction xs with
  | nil => intro buf pos; simp [run]
  | cons x xs ih => intro buf pos; simp [run, ih]

theorem run_pos_le (L : Nat) (d : α) (hL : 1 ≤ L) (xs : List α) :
    ∀ (buf : List α) (pos : Nat), pos ≤ L → (run L d buf pos xs).2.2 ≤ L := by
  induction xs with
  | nil => intro buf pos hp; simpa [run] using hp
  | cons x xs ih =>
    intro buf pos hp
    simp only [run]
    exact ih _ _ (cell_lt hL hp)

theorem loopBody_eq (e : EffectEcho α) (buf : List α) (x : α)
    (hb : e.history = some buf) (hlen : buf.length = e.histLen)
    (hL : 1 ≤ e.histLen) (hp : e.histPos ≤ e.histLen) :
    loopBody e x = some (x + buf.getD (cell e.histLen e.histPos) 0 * e.decay,
      { e with history := some (buf.set (cell e.histLen e.histPos)
                  (x + buf.getD (cell e.histLen e.histPos) 0 * e.decay)),
               histPos := cell e.histLen e.histPos + 1 }) := by
  have hc : cell e.histLen e.histPos < buf.length := by
    rw [hlen]; exact cell_lt hL hp
  have hget : buf[cell e.histLen e.histPos]? = some (buf.getD (cell e.histLen e.histPos) 0) := by
    rw [List.getD_eq_getElem?_getD, List.getElem?_eq_getElem hc]; simp
  unfold loopBody
  simp only [hb]
  change (match buf[cell e.histLen e.histPos]? with
    | none => none
    | some h => some (x + h * e.decay,
        { e with history := some (buf.set (cell e.histLen e.histPos) (x + h * e.decay)),
                 histPos := cell e.histLen e.histPos + 1 })) = _
  rw [hget]

theorem loop_eq_run (xs : List α) :
    ∀ (e : EffectEcho α) (buf : List α), e.history = some buf → buf.length = e.histLen →
      1 ≤ e.histLen → e.histPos ≤ e.histLen →
      loop e xs = some ((run e.histLen e.decay buf e.histPos xs).1,
        { e with history := some (run e.histLen e.decay buf e.histPos xs).2.1,
                 histPos := (run e.histLen e.decay buf e.histPos xs).2.2 }) := by
  induction xs with
  | nil =>
    intro e buf hb hlen hL hp
    cases e
    simp_all [loop, run]
  | cons x xs ih =>
    intro e buf hb hlen hL hp
    have hc := cell_lt hL hp
    have hstep := ih
      { e with history := some (buf.set (cell e.histLen e.histPos)
                  (x + buf.getD (cell e.histLen e.histPos) 0 * e.decay)),
               histPos := cell e.histLen e.histPos + 1 }
      (buf.set (cell e.histLen e.histPos) (x + buf.getD (cell e.histLen e.histPos) 0 * e.decay))
      rfl (by simp [hlen]) hL (by simpa using hc)
    rw [loop, loopBody_eq e buf x hb hlen hL hp]
    simp only at hstep ⊢
    rw [hstep]
    simp [run]

theorem run_append (L : Nat) (d : α) (xs ys : List α) :
    ∀ (buf : List α) (pos : Nat),
      run L d buf pos (xs ++ ys)
        = ((run L d buf pos xs).1 ++
              (run L d (run L d buf pos xs).2.1 (run L d buf pos xs).2.2 ys).1,
           (run L d (run L d buf pos xs).2.1 (run L d buf pos xs).2.2 ys).2.1,
           (run L d (run L d buf pos xs).2.1 (run L d buf pos xs).2.2 ys).2.2) := by
  induction xs with
  | nil => intro buf pos; simp [run]
  | cons x xs ih => intro buf pos; simp [run, ih]

/-- The recurrence of the loop on any buffer: every output is the input plus the
history sample times the decay, where the history sample is the initial buffer
content for the first `L` steps and the output `L` steps earlier afterwards. -/
theorem run_getD (L : Nat) (d : α) (hL : 1 ≤ L) (xs : List α) :
    ∀ (buf : List α) (pos : Nat), buf.length = L → pos ≤ L → ∀ n, n < xs.length →
      (run L d buf pos xs).1.getD n 0
        = xs.getD n 0 + (if n < L then buf.getD ((pos + n) % L) 0
                          else (run L d buf pos xs).1.getD (n - L) 0) * d := by
  induction xs with
  | nil => intro buf pos _ _ n hn; simp at hn
  | cons x xs ih =>
    intro buf pos hlen hp n hn
    have hc : cell L pos < L := cell_lt hL hp
    have hcm : cell L pos = pos % L := cell_eq_mod hL hp
    cases n with
    | zero =>
      have h0 : 0 < L := hL
      simp [run, h0, hcm]
    | succ m =>
      have hm : m < xs.length := by simpa using hn
      have key := ih (buf.set (cell L pos) (x + buf.getD (cell L pos) 0 * d)) (cell L pos + 1)
        (by simp [hlen]) hc m hm
      simp only [run, List.getD_cons_succ]
      rw [key]
      congr 2
      by_cases h1 : m + 1 < L
      · have h2 : m < L := by omega
        rw [if_pos h1, if_pos h2]
        have hidx : (cell L pos + 1 + m) % L = (pos + (m + 1)) % L := by
          rw [hcm, Nat.add_assoc, Nat.mod_add_mod, Nat.add_comm 1 m]
        rw [← hidx]
        exact getD_set_other _ _ _ _ (Ne.symm (shift_mod L _ m hc h1))
      · rw [if_neg h1]
        by_cases h3 : m + 1 = L
        · have h2 : m < L := by omega
          rw [if_pos h2]
          have hidx : (cell L pos + 1 + m) % L = cell L pos := by
            rw [Nat.add_assoc, Nat.add_comm 1 m, h3, Nat.add_mod_right, Nat.mod_eq_of_lt hc]
          rw [hidx, getD_set_self _ _ _ (by rw [hlen]; exact hc)]
          have : m + 1 - L = 0 := by omega
          rw [this]
          simp
        · have h2 : ¬ m < L := by omega
          rw [if_neg h2]
          have : m + 1 - L = (m - L) + 1 := by omega
          rw [this, List.getD_cons_succ]

theorem ProcessBlock_eq_run (e : EffectEcho α) (buf : List α) (xs : List α)
    (hb : e.history = some buf) (hlen : buf.length = e.histLen)
    (hL : 1 ≤ e.histLen) (hp : e.histPos ≤ e.histLen) :
    ProcessBlock e xs = some (xs.length, (run e.histLen e.decay buf e.histPos xs).1,
        { e with history := some (run e.histLen e.decay buf e.histPos xs).2.1,
                 histPos := (run e.histLen e.decay buf e.histPos xs).2.2 }) := by
  unfold ProcessBlock
  rw [loop_eq_run xs e buf hb hlen hL hp]

end Basic

/-! ## Claims about `ProcessBlock` -/

theorem list_ext_getD [Zero α] (l₁ l₂ : List α) (hl : l₁.length = l₂.length)
    (h : ∀ n, n < l₁.length → l₁.getD n 0 = l₂.getD n 0) : l₁ = l₂ := by
  apply List.ext_getElem hl
  intro n h1 h2
  have := h n h1
  rwa [List.getD_eq_getElem _ _ h1, List.getD_eq_getElem _ _ h2] at this

/-- The difference equation of the echo on a fresh state (shared by the claims
below). -/
theorem fresh_recurrence [CommSemiring α] (e : EffectEcho α) (L : Nat)
    (x : List α) (hL : 1 ≤ L) (hfresh : Fresh e L) :
    ∃ y e', ProcessBlock e x = some (x.length, y, e') ∧ y.length = x.length ∧
      ∀ n, n < x.length →
        y.getD n 0 = if n < L then x.getD n 0 else x.getD n 0 + e.decay * y.getD (n - L) 0 := by
  obtain ⟨hb, hp, hlen⟩ := hfresh
  have hL' : 1 ≤ e.histLen := by rw [hlen]; exact hL
  have hbl : (List.replicate L (0 : α)).length = e.histLen := by simp [hlen]
  refine ⟨_, _, ProcessBlock_eq_run e _ x hb hbl hL' (by rw [hp]; exact Nat.zero_le _),
    run_length_out _ _ _ _ _, ?_⟩
  intro n hn
  rw [run_getD e.histLen e.decay hL' x _ _ hbl (by rw [hp]; exact Nat.zero_le _) n hn, hlen]
  by_cases h : n < L
  · have hz : (List.replicate L (0 : α)).getD ((e.histPos + n) % L) 0 = 0 := by
      rw [List.getD_eq_getElem?_getD, List.getElem?_replicate]
      split_ifs <;> rfl
    rw [if_pos h, if_pos h, hz, zero_mul, add_zero]
  · rw [if_neg h, if_neg h, mul_comm]

/-- C2: for a state with `histLen ≥ 1`, `histPos ≤ histLen` and a history array of
`histLen` samples, and every `k ≤ N`, one call of `ProcessBlock` on the whole input
and two calls on its first `k` and its remaining `N - k` samples all return, the
whole output is the concatenation of the two partial outputs, and both runs end in
the same state (same buffer contents, same cursor). -/
theorem processBlock_split [Zero α] [Add α] [Mul α] (e : EffectEcho α) (x : List α)
    (k : Nat) (hk : k ≤ x.length) (hwf : WellFormed e) :
    ∃ y e' y1 e1 y2,
      ProcessBlock e x = some (x.length, y, e') ∧
      ProcessBlock e (x.take k) = some (k, y1, e1) ∧
      ProcessBlock e1 (x.drop k) = some (x.length - k, y2, e') ∧
      y = y1 ++ y2 := by
  obtain ⟨⟨buf, hb, hlen⟩, hL, hp⟩ := hwf
  have hwhole := ProcessBlock_eq_run e buf x hb hlen hL hp
  have hfirst := ProcessBlock_eq_run e buf (x.take k) hb hlen hL hp
  have hsecond := ProcessBlock_eq_run
    { e with history := some (run e.histLen e.decay buf e.histPos (x.take k)).2.1,
             histPos := (run e.histLen e.decay buf e.histPos (x.take k)).2.2 }
    (run e.histLen e.decay buf e.histPos (x.take k)).2.1 (x.drop k) rfl
    (by rw [run_length_buf]; exact hlen) hL (run_pos_le _ _ hL _ _ _ hp)
  have happ := run_append e.histLen e.decay (x.take k) (x.drop k) buf e.histPos
  rw [List.take_append_drop] at happ
  have hk1 : (x.take k).length = k := by simp [hk]
  have hk2 : (x.drop k).length = x.length - k := by simp
  rw [hk1] at hfirst
  rw [hk2] at hsecond
  simp only at hsecond
  refine ⟨_, _, _, _,
    (run e.histLen e.decay (run e.histLen e.decay buf e.histPos (x.take k)).2.1
      (run e.histLen e.decay buf e.histPos (x.take k)).2.2 (x.drop k)).1,
    hwhole, hfirst, ?_, ?_⟩
  · rw [hsecond, happ]
  · rw [happ]

/-- Witness for C2: cursor parked at `histLen`, non-zero buffer, split at `k = 2`. -/
theorem processBlock_split_witness :
    ∃ y e' y1 e1 y2,
      ProcessBlock (⟨44100, 1, 2, some [5, 7, 9], 3, 3⟩ : EffectEcho ℤ) [1, 2, 3, 4, 5]
        = some (5, y, e') ∧
      ProcessBlock (⟨44100, 1, 2, some [5, 7, 9], 3, 3⟩ : EffectEcho ℤ) [1, 2]
        = some (2, y1, e1) ∧
      ProcessBlock e1 [3, 4, 5] = some (3, y2, e') ∧
      y = y1 ++ y2 :=
  processBlock_split (⟨44100, 1, 2, some [5, 7, 9], 3, 3⟩ : EffectEcho ℤ) [1, 2, 3, 4, 5] 2
    (by decide) ⟨⟨[5, 7, 9], rfl, rfl⟩, by decide, by decide⟩

theorem impulse_length [Zero α] [One α] (N : Nat) : (impulse N : List α).length = N := by
  simp [impulse]

theorem impulse_getD [Zero α] [One α] (N n : Nat) (hn : n < N) :
    (impulse N : List α).getD n 0 = if n = 0 then 1 else 0 := by
  rw [List.getD_eq_getElem _ _ (by rw [impulse_length]; exact hn)]
  simp [impulse]

/-- The impulse response on a fresh state, sample by sample. -/
theorem fresh_impulse [CommSemiring α] (e : EffectEcho α) (L N : Nat) (hL : 1 ≤ L)
    (hfresh : Fresh e L) :
    ∃ y e', ProcessBlock e (impulse N) = some (N, y, e') ∧ y.length = N ∧
      ∀ n, n < N → y.getD n 0 = if L ∣ n then e.decay ^ (n / L) else 0 := by
  obtain ⟨y, e', hrun, hylen, hrec⟩ := fresh_recurrence e L (impulse N) hL hfresh
  rw [impulse_length] at hrun hylen hrec
  refine ⟨y, e', hrun, hylen, ?_⟩
  intro n
  induction n using Nat.strong_induction_on with
  | _ n ih =>
    intro hn
    rw [hrec n hn]
    by_cases h : n < L
    · rw [if_pos h, impulse_getD N n hn]
      by_cases h0 : n = 0
      · subst h0; simp
      · have hnd : ¬ L ∣ n := fun hd => by
          have := Nat.le_of_dvd (by omega) hd
          omega
        rw [if_neg h0, if_neg hnd]
    · have hge : L ≤ n := by omega
      have h0 : n ≠ 0 := by omega
      rw [if_neg h, impulse_getD N n hn, if_neg h0, ih (n - L) (by omega) (by omega), zero_add]
      have hdiv : L ∣ n - L ↔ L ∣ n := by
        constructor
        · intro hd
          have := Nat.dvd_add hd (Nat.dvd_refl L)
          rwa [Nat.sub_add_cancel hge] at this
        · intro hd
          exact Nat.dvd_sub' hd (Nat.dvd_refl L)
      have hq : n / L = (n - L) / L + 1 := by
        conv_lhs => rw [← Nat.sub_add_cancel hge]
        exact Nat.add_div_right _ (by omega)
      by_cases hd : L ∣ n
      · rw [if_pos hd, if_pos (hdiv.mpr hd), hq, pow_succ']
      · rw [if_neg hd, if_neg (fun h' => hd (hdiv.mp h')), mul_zero]

/-- Superposition on fresh states, sample by sample. -/
theorem fresh_linear [CommSemiring α] (e : EffectEcho α) (L : Nat) (c : α) (A B : List α)
    (hL : 1 ≤ L) (hfresh : Fresh e L) (hAB : A.length = B.length) :
    ∃ yA eA yB eB yZ eZ,
      ProcessBlock e A = some (A.length, yA, eA) ∧
      ProcessBlock e B = some (A.length, yB, eB) ∧
      ProcessBlock e (List.zipWith (fun a b => a + c * b) A B) = some (A.length, yZ, eZ) ∧
      yA.length = A.length ∧ yB.length = A.length ∧ yZ.length = A.length ∧
      ∀ n, n < A.length → yZ.getD n 0 = yA.getD n 0 + c * yB.getD n 0 := by
  obtain ⟨yA, eA, hA, hAl, hAr⟩ := fresh_recurrence e L A hL hfresh
  obtain ⟨yB, eB, hB, hBl, hBr⟩ := fresh_recurrence e L B hL hfresh
  obtain ⟨yZ, eZ, hZ, hZl, hZr⟩ :=
    fresh_recurrence e L (List.zipWith (fun a b => a + c * b) A B) hL hfresh
  have hZlen : (List.zipWith (fun a b => a + c * b) A B).length = A.length := by
    simp [hAB]
  rw [hZlen] at hZ hZl hZr
  rw [← hAB] at hB hBl hBr
  refine ⟨yA, eA, yB, eB, yZ, eZ, hA, hB, hZ, hAl, hBl, hZl, ?_⟩
  have hzip : ∀ n, n < A.length →
      (List.zipWith (fun a b => a + c * b) A B).getD n 0 = A.getD n 0 + c * B.getD n 0 := by
    intro n hn
    rw [List.getD_eq_getElem _ _ (by rw [hZlen]; exact hn), List.getD_eq_getElem _ _ hn,
      List.getD_eq_getElem _ _ (by rw [← hAB]; exact hn), List.getElem_zipWith]
  intro n
  induction n using Nat.strong_induction_on with
  | _ n ih =>
    intro hn
    rw [hZr n hn, hAr n hn, hBr n hn, hzip n hn]
    by_cases h : n < L
    · rw [if_pos h, if_pos h, if_pos h]
    · rw [if_neg h, if_neg h, if_neg h, ih (n - L) (by omega) (by omega)]
      ring

/-! ## Rounding and the floating-point arithmetic -/

theorem roundHalfEven_eq (m : ℚ) (n : Int) (lo : (n : ℚ) - 1 / 2 < m) (hi : m < (n : ℚ) + 1 / 2) :
    roundHalfEven m = n := by
  unfold roundHalfEven
  by_cases h : (n : ℚ) ≤ m
  · have hf : ⌊m⌋ = n := Int.floor_eq_iff.mpr ⟨h, by linarith⟩
    rw [hf, if_pos (by linarith)]
  · have hf : ⌊m⌋ = n - 1 := Int.floor_eq_iff.mpr ⟨by push_cast; linarith, by push_cast; linarith⟩
    rw [hf]
    push_cast
    rw [if_neg (by linarith), if_pos (by linarith)]
    ring

theorem log_two_eq (q : ℚ) (e : Int) (h1 : (2 : ℚ) ^ e ≤ q) (h2 : q < (2 : ℚ) ^ (e + 1)) :
    Int.log 2 q = e := by
  have hq : 0 < q := lt_of_lt_of_le (by positivity) h1
  have ha : e ≤ Int.log 2 q := (Int.zpow_le_iff_le_log (by norm_num) hq).mp (by exact_mod_cast h1)
  have hb : Int.log 2 q < e + 1 := (Int.lt_zpow_iff_log_lt (by norm_num) hq).mp (by exact_mod_cast h2)
  omega

theorem roundBinary_eval (prec emin : Int) (q : ℚ) (e n u : Int) (hq : 0 < q)
    (h1 : (2 : ℚ) ^ e ≤ q) (h2 : q < (2 : ℚ) ^ (e + 1)) (hemin : emin ≤ e)
    (hu : u = e - (prec - 1))
    (lo : (n : ℚ) - 1 / 2 < q / (2 : ℚ) ^ u) (hi : q / (2 : ℚ) ^ u < (n : ℚ) + 1 / 2) :
    roundBinary prec emin q = (n : ℚ) * (2 : ℚ) ^ u := by
  have hU : ulpExponent prec emin q = u := by
    unfold ulpExponent
    rw [abs_of_pos hq, log_two_eq q e h1 h2, max_eq_left hemin, hu]
  unfold roundBinary
  rw [if_neg (ne_of_gt hq), hU, roundHalfEven_eq _ n lo hi]

theorem roundHalfEven_tie (m : ℚ) (f n : Int) (hm : m = (f : ℚ) + 1 / 2)
    (hev : n % 2 = 0) (hn : n = f ∨ n = f + 1) : roundHalfEven m = n := by
  have hf : ⌊m⌋ = f := Int.floor_eq_iff.mpr ⟨by rw [hm]; linarith, by rw [hm]; linarith⟩
  have hfr : m - (f : ℚ) = 1 / 2 := by rw [hm]; ring
  unfold roundHalfEven
  rw [hf, hfr, if_neg (lt_irrefl _), if_neg (lt_irrefl _)]
  rcases hn with h | h
  · rw [if_pos (by rw [← h]; exact hev), h]
  · rw [if_neg (by omega), h]

theorem roundBinary_tie (prec emin : Int) (q : ℚ) (e f n u : Int) (hq : 0 < q)
    (h1 : (2 : ℚ) ^ e ≤ q) (h2 : q < (2 : ℚ) ^ (e + 1)) (hemin : emin ≤ e)
    (hu : u = e - (prec - 1)) (hm : q / (2 : ℚ) ^ u = (f : ℚ) + 1 / 2)
    (hev : n % 2 = 0) (hn : n = f ∨ n = f + 1) :
    roundBinary prec emin q = (n : ℚ) * (2 : ℚ) ^ u := by
  have hU : ulpExponent prec emin q = u := by
    unfold ulpExponent
    rw [abs_of_pos hq, log_two_eq q e h1 h2, max_eq_left hemin, hu]
  unfold roundBinary
  rw [if_neg (ne_of_gt hq), hU, roundHalfEven_tie _ f n hm hev hn]

theorem roundHalfEven_intCast (n : Int) : roundHalfEven (n : ℚ) = n :=
  roundHalfEven_eq _ n (by linarith) (by linarith)

theorem roundBinary_zero (prec emin : Int) : roundBinary prec emin 0 = 0 := by
  simp [roundBinary]

theorem roundBinary_representable (prec emin : Int) (n u : Int)
    (hn : |(n : ℚ)| < (2 : ℚ) ^ prec) (hu : emin - (prec - 1) ≤ u) :
    roundBinary prec emin ((n : ℚ) * (2 : ℚ) ^ u) = (n : ℚ) * (2 : ℚ) ^ u := by
  by_cases h0 : n = 0
  · simp [h0, roundBinary]
  · have h2 : (0 : ℚ) < (2 : ℚ) ^ u := by positivity
    have hq : (n : ℚ) * (2 : ℚ) ^ u ≠ 0 :=
      mul_ne_zero (by exact_mod_cast h0) (ne_of_gt h2)
    have hlt : |(n : ℚ) * (2 : ℚ) ^ u| < (2 : ℚ) ^ (prec + u) := by
      rw [abs_mul, abs_of_pos h2, zpow_add₀ (by norm_num)]
      exact mul_lt_mul_of_pos_right hn h2
    have hl : Int.log 2 |(n : ℚ) * (2 : ℚ) ^ u| < prec + u :=
      (Int.lt_zpow_iff_log_lt (by norm_num) (abs_pos.mpr hq)).mp (by exact_mod_cast hlt)
    have hU : ulpExponent prec emin ((n : ℚ) * (2 : ℚ) ^ u) ≤ u := by
      unfold ulpExponent
      have := max_le (show Int.log 2 |(n : ℚ) * (2 : ℚ) ^ u| ≤ u + (prec - 1) by omega)
        (show emin ≤ u + (prec - 1) by omega)
      omega
    obtain ⟨k, hk⟩ : ∃ k : ℕ, u = ulpExponent prec emin ((n : ℚ) * (2 : ℚ) ^ u) + k :=
      ⟨(u - ulpExponent prec emin ((n : ℚ) * (2 : ℚ) ^ u)).toNat, by omega⟩
    have hsplit : (2 : ℚ) ^ u
        = (2 : ℚ) ^ ulpExponent prec emin ((n : ℚ) * (2 : ℚ) ^ u) * (2 : ℚ) ^ k := by
      conv_lhs => rw [hk]
      rw [zpow_add₀ (by norm_num), zpow_natCast]
    have hpos : (0 : ℚ) < (2 : ℚ) ^ ulpExponent prec emin ((n : ℚ) * (2 : ℚ) ^ u) := by
      positivity
    have hquot : (n : ℚ) * (2 : ℚ) ^ u / (2 : ℚ) ^ ulpExponent prec emin ((n : ℚ) * (2 : ℚ) ^ u)
        = ((n * 2 ^ k : Int) : ℚ) := by
      rw [div_eq_iff (ne_of_gt hpos)]
      conv_lhs => rw [hsplit]
      push_cast
      ring
    unfold roundBinary
    rw [if_neg hq, hquot, roundHalfEven_intCast]
    conv_rhs => rw [hsplit]
    push_cast
    ring

theorem roundHalfEven_nonneg (m : ℚ) (hm : 0 ≤ m) : 0 ≤ roundHalfEven m := by
  have hf : 0 ≤ ⌊m⌋ := Int.floor_nonneg.mpr hm
  unfold roundHalfEven
  split_ifs <;> omega

theorem roundBinary_nonneg (prec emin : Int) (q : ℚ) (hq : 0 ≤ q) :
    0 ≤ roundBinary prec emin q := by
  unfold roundBinary
  split_ifs
  · exact le_refl _
  · have : 0 ≤ roundHalfEven (q / (2 : ℚ) ^ ulpExponent prec emin q) :=
      roundHalfEven_nonneg _ (div_nonneg hq (by positivity))
    exact mul_nonneg (by exact_mod_cast this) (by positivity)

theorem FloatVal.zero_def : (0 : FloatVal) = FloatVal.fin 0 := rfl

theorem FloatVal.one_def : (1 : FloatVal) = FloatVal.fin 1 := rfl

theorem FloatVal.mul_def (a b : FloatVal) : a * b = mulDouble a b := rfl

theorem FloatVal.add_def (a b : FloatVal) : a + b = toFloat32 (addDouble a b) := rfl

theorem doubleResult_eq (q r : ℚ) (hr : roundDouble q = r) (hb : |r| < (2 : ℚ) ^ 1024) :
    doubleResult q = FloatVal.fin r := by
  unfold doubleResult
  rw [hr, if_neg (not_le.mpr hb)]

theorem toFloat32_eq (q r : ℚ) (hr : roundFloat q = r) (hb : |r| < (2 : ℚ) ^ 128) :
    toFloat32 (FloatVal.fin q) = FloatVal.fin r := by
  show (if (2 : ℚ) ^ 128 ≤ |roundFloat q| then FloatVal.inf (decide (q < 0))
    else FloatVal.fin (roundFloat q)) = _
  rw [hr, if_neg (not_le.mpr hb)]

/-- One evaluation of `x + h * d` in the arithmetic of line 141. -/
theorem mix_eval (x h d p s y : ℚ) (hp : roundDouble (h * d) = p)
    (hs : roundDouble (x + p) = s) (hy : roundFloat s = y)
    (bp : |p| < (2 : ℚ) ^ 1024) (bs : |s| < (2 : ℚ) ^ 1024) (hby : |y| < (2 : ℚ) ^ 128) :
    FloatVal.fin x + FloatVal.fin h * FloatVal.fin d = FloatVal.fin y := by
  rw [FloatVal.mul_def, FloatVal.add_def]
  have h1 : mulDouble (FloatVal.fin h) (FloatVal.fin d) = FloatVal.fin p := doubleResult_eq _ _ hp bp
  have h2 : addDouble (FloatVal.fin x) (FloatVal.fin p) = FloatVal.fin s := doubleResult_eq _ _ hs bs
  rw [h1, h2, toFloat32_eq _ _ hy hby]

theorem roundDouble_zero : roundDouble 0 = 0 := roundBinary_zero _ _

theorem roundFloat_zero : roundFloat 0 = 0 := roundBinary_zero _ _

/-- A float value is unchanged by a double operation that leaves it mathematically
unchanged and by the store to `float`. -/
theorem float32_fixed (v : FloatVal) (hv : IsFloat32 v) :
    ∃ q, v = FloatVal.fin q ∧ roundDouble q = q ∧ roundFloat q = q ∧ |q| < (2 : ℚ) ^ 128 := by
  obtain ⟨n, u, hn, hu, hb, rfl⟩ := hv
  refine ⟨_, rfl, ?_, ?_, hb⟩
  · apply roundBinary_representable
    · exact lt_trans hn (by norm_num)
    · omega
  · apply roundBinary_representable
    · exact hn
    · omega

theorem float32_add_zero_mul (v : FloatVal) (hv : IsFloat32 v) (d : ℚ) :
    v + 0 * FloatVal.fin d = v := by
  obtain ⟨q, rfl, hd, hf, hb⟩ := float32_fixed v hv
  rw [FloatVal.zero_def]
  exact mix_eval q 0 d 0 q q (by rw [zero_mul, roundDouble_zero]) (by rw [add_zero, hd]) hf
    (by norm_num) (lt_trans hb (by norm_num)) hb

theorem float32_add_mul_zero (v h : FloatVal) (hv : IsFloat32 v) (hh : IsFloat32 h) :
    v + h * 0 = v := by
  obtain ⟨q, rfl, hd, hf, hb⟩ := float32_fixed v hv
  obtain ⟨a, rfl, _⟩ := float32_fixed h hh
  rw [FloatVal.zero_def]
  exact mix_eval q a 0 0 q q (by rw [mul_zero, roundDouble_zero]) (by rw [add_zero, hd]) hf
    (by norm_num) (lt_trans hb (by norm_num)) hb

theorem doubleResult_zero : doubleResult 0 = FloatVal.fin 0 :=
  doubleResult_eq 0 0 roundDouble_zero (by norm_num)

theorem inf_add_zero_mul_zero (s : Bool) :
    FloatVal.inf s + (0 : FloatVal) * 0 = FloatVal.inf s := by
  have h1 : (0 : FloatVal) * 0 = FloatVal.fin 0 := by
    show doubleResult (0 * 0) = _
    rw [mul_zero, doubleResult_zero]
  rw [h1]
  rfl

theorem add_inf_mul_zero (x : FloatVal) (s : Bool) :
    x + FloatVal.inf s * 0 = FloatVal.nan := by
  have h1 : FloatVal.inf s * (0 : FloatVal) = FloatVal.nan := by
    show (if (0 : ℚ) = 0 then FloatVal.nan
      else FloatVal.inf (xor s (decide ((0 : ℚ) < 0)))) = _
    rw [if_pos rfl]
  rw [h1]
  cases x <;> rfl

theorem roundDouble_of_eq (q : ℚ) (n u : Int) (hq : q = (n : ℚ) * (2 : ℚ) ^ u)
    (hn : |(n : ℚ)| < (2 : ℚ) ^ (53 : Int)) (hu : -1074 ≤ u) : roundDouble q = q := by
  rw [hq]
  exact roundBinary_representable 53 (-1022) n u hn (by omega)

theorem roundFloat_of_eq (q : ℚ) (n u : Int) (hq : q = (n : ℚ) * (2 : ℚ) ^ u)
    (hn : |(n : ℚ)| < (2 : ℚ) ^ (24 : Int)) (hu : -149 ≤ u) : roundFloat q = q := by
  rw [hq]
  exact roundBinary_representable 24 (-126) n u hn (by omega)

/-- Evaluation of `roundDouble` at a positive value from its binade and its nearest
significand. -/
theorem roundDouble_eval (q : ℚ) (e n u : Int) (hq : 0 < q)
    (h1 : (2 : ℚ) ^ e ≤ q) (h2 : q < (2 : ℚ) ^ (e + 1)) (hemin : -1022 ≤ e)
    (hu : u = e - 52)
    (lo : (n : ℚ) - 1 / 2 < q / (2 : ℚ) ^ u) (hi : q / (2 : ℚ) ^ u < (n : ℚ) + 1 / 2) :
    roundDouble q = (n : ℚ) * (2 : ℚ) ^ u :=
  roundBinary_eval 53 (-1022) q e n u hq h1 h2 hemin (by omega) lo hi

/-- Evaluation of `roundFloat` at a positive value from its binade and its nearest
significand. -/
theorem roundFloat_eval (q : ℚ) (e n u : Int) (hq : 0 < q)
    (h1 : (2 : ℚ) ^ e ≤ q) (h2 : q < (2 : ℚ) ^ (e + 1)) (hemin : -126 ≤ e)
    (hu : u = e - 23)
    (lo : (n : ℚ) - 1 / 2 < q / (2 : ℚ) ^ u) (hi : q / (2 : ℚ) ^ u < (n : ℚ) + 1 / 2) :
    roundFloat q = (n : ℚ) * (2 : ℚ) ^ u :=
  roundBinary_eval 24 (-126) q e n u hq h1 h2 hemin (by omega) lo hi

theorem cast_abs_lt_of_natAbs (n : Int) (k : Nat) (hn : n.natAbs < 2 ^ k) :
    |(n : ℚ)| < (2 : ℚ) ^ (k : Int) := by
  have h1 : |(n : ℚ)| = ((n.natAbs : Nat) : ℚ) := by
    rw [Nat.cast_natAbs, Int.cast_abs]
  rw [h1, zpow_natCast]
  exact_mod_cast hn

theorem roundDouble_eq_of_repr (q r : ℚ) (n u : Int) (hq : q = (n : ℚ) * (2 : ℚ) ^ u)
    (hr : r = q) (hn : n.natAbs < 2 ^ 53) (hu : -1074 ≤ u) : roundDouble q = r := by
  rw [hr]
  exact roundDouble_of_eq q n u hq (cast_abs_lt_of_natAbs n 53 hn) hu

theorem roundFloat_eq_of_repr (q r : ℚ) (n u : Int) (hq : q = (n : ℚ) * (2 : ℚ) ^ u)
    (hr : r = q) (hn : n.natAbs < 2 ^ 24) (hu : -149 ≤ u) : roundFloat q = r := by
  rw [hr]
  exact roundFloat_of_eq q n u hq (cast_abs_lt_of_natAbs n 24 hn) hu

theorem roundDouble_eq_of_near (q r : ℚ) (e n u : Int) (hq : 0 < q)
    (h1 : (2 : ℚ) ^ e ≤ q) (h2 : q < (2 : ℚ) ^ (e + 1)) (hemin : -1022 ≤ e)
    (hu : u = e - 52)
    (lo : (n : ℚ) - 1 / 2 < q / (2 : ℚ) ^ u) (hi : q / (2 : ℚ) ^ u < (n : ℚ) + 1 / 2)
    (hr : r = (n : ℚ) * (2 : ℚ) ^ u) : roundDouble q = r := by
  rw [hr]
  exact roundDouble_eval q e n u hq h1 h2 hemin hu lo hi

theorem roundFloat_eq_of_near (q r : ℚ) (e n u : Int) (hq : 0 < q)
    (h1 : (2 : ℚ) ^ e ≤ q) (h2 : q < (2 : ℚ) ^ (e + 1)) (hemin : -126 ≤ e)
    (hu : u = e - 23)
    (lo : (n : ℚ) - 1 / 2 < q / (2 : ℚ) ^ u) (hi : q / (2 : ℚ) ^ u < (n : ℚ) + 1 / 2)
    (hr : r = (n : ℚ) * (2 : ℚ) ^ u) : roundFloat q = r := by
  rw [hr]
  exact roundFloat_eval q e n u hq h1 h2 hemin hu lo hi

theorem roundDouble_eq_of_tie (q r : ℚ) (e f n u : Int) (hq : 0 < q)
    (h1 : (2 : ℚ) ^ e ≤ q) (h2 : q < (2 : ℚ) ^ (e + 1)) (hemin : -1022 ≤ e)
    (hu : u = e - 52) (hm : q / (2 : ℚ) ^ u = (f : ℚ) + 1 / 2)
    (hev : n % 2 = 0) (hn : n = f ∨ n = f + 1)
    (hr : r = (n : ℚ) * (2 : ℚ) ^ u) : roundDouble q = r := by
  rw [hr]
  exact roundBinary_tie 53 (-1022) q e f n u hq h1 h2 hemin (by omega) hm hev hn

theorem roundFloat_eq_of_tie (q r : ℚ) (e f n u : Int) (hq : 0 < q)
    (h1 : (2 : ℚ) ^ e ≤ q) (h2 : q < (2 : ℚ) ^ (e + 1)) (hemin : -126 ≤ e)
    (hu : u = e - 23) (hm : q / (2 : ℚ) ^ u = (f : ℚ) + 1 / 2)
    (hev : n % 2 = 0) (hn : n = f ∨ n = f + 1)
    (hr : r = (n : ℚ) * (2 : ℚ) ^ u) : roundFloat q = r := by
  rw [hr]
  exact roundBinary_tie 24 (-126) q e f n u hq h1 h2 hemin (by omega) hm hev hn

/-- A value with a 24-bit significand is a `float`. -/
theorem isFloat32_of_repr (q : ℚ) (n u : Int) (hq : q = (n : ℚ) * (2 : ℚ) ^ u)
    (hn : n.natAbs < 2 ^ 24) (hu : -149 ≤ u) (hb : |q| < (2 : ℚ) ^ 128) :
    IsFloat32 (FloatVal.fin q) :=
  ⟨n, u, cast_abs_lt_of_natAbs n 24 hn, hu, by rw [← hq]; exact hb, by rw [hq]⟩

theorem roundHalfEven_bounds (m : ℚ) : ⌊m⌋ ≤ roundHalfEven m ∧ roundHalfEven m ≤ ⌊m⌋ + 1 := by
  unfold roundHalfEven
  split_ifs <;> omega

theorem roundHalfEven_abs_le (m : ℚ) (B : Int) (hm : |m| < (B : ℚ)) :
    |roundHalfEven m| ≤ B := by
  obtain ⟨h1, h2⟩ := roundHalfEven_bounds m
  obtain ⟨hlo, hhi⟩ := abs_lt.mp hm
  have hf1 : ⌊m⌋ < B := Int.floor_lt.mpr hhi
  have hf2 : -B ≤ ⌊m⌋ := Int.le_floor.mpr (by push_cast; linarith)
  rw [abs_le]
  constructor <;> omega

/-- The result of a rounding is a value of the format. -/
theorem roundBinary_is_representable (prec emin : Int) (hprec : 1 ≤ prec) (q : ℚ) :
    ∃ n u : Int, |(n : ℚ)| < (2 : ℚ) ^ prec ∧ emin - (prec - 1) ≤ u ∧
      roundBinary prec emin q = (n : ℚ) * (2 : ℚ) ^ u := by
  by_cases hq : q = 0
  · refine ⟨0, emin - (prec - 1), ?_, le_refl _, ?_⟩
    · rw [Int.cast_zero, abs_zero]; positivity
    · rw [hq, roundBinary_zero]; simp
  · obtain ⟨p, hp⟩ : ∃ p : ℕ, prec = (p : Int) + 1 := ⟨(prec - 1).toNat, by omega⟩
    have hU1 : Int.log 2 |q| - (prec - 1) ≤ ulpExponent prec emin q := by
      unfold ulpExponent
      have := le_max_left (Int.log 2 |q|) emin
      omega
    have hU2 : emin - (prec - 1) ≤ ulpExponent prec emin q := by
      unfold ulpExponent
      have := le_max_right (Int.log 2 |q|) emin
      omega
    have hpos : (0 : ℚ) < (2 : ℚ) ^ ulpExponent prec emin q := by positivity
    have hqlt : |q| < (2 : ℚ) ^ (Int.log 2 |q| + 1) := by
      have := Int.lt_zpow_succ_log_self (b := 2) (by norm_num) |q|
      exact_mod_cast this
    have hle : (2 : ℚ) ^ (Int.log 2 |q| + 1)
        ≤ (2 : ℚ) ^ prec * (2 : ℚ) ^ ulpExponent prec emin q := by
      rw [← zpow_add₀ (by norm_num : (2 : ℚ) ≠ 0)]
      exact zpow_le_zpow_right₀ (by norm_num) (by omega)
    have hm : |q / (2 : ℚ) ^ ulpExponent prec emin q| < (((2 : Int) ^ (p + 1) : Int) : ℚ) := by
      rw [abs_div, abs_of_pos hpos, div_lt_iff₀ hpos]
      have : (((2 : Int) ^ (p + 1) : Int) : ℚ) = (2 : ℚ) ^ prec := by
        rw [hp]; push_cast; rw [← zpow_natCast]; push_cast; rfl
      rw [this]
      exact lt_of_lt_of_le hqlt hle
    have hN := roundHalfEven_abs_le _ _ hm
    have hval : roundBinary prec emin q
        = (roundHalfEven (q / (2 : ℚ) ^ ulpExponent prec emin q) : ℚ)
          * (2 : ℚ) ^ ulpExponent prec emin q := by
      unfold roundBinary
      rw [if_neg hq]
    have hpow : (2 : ℚ) ^ prec = (((2 : Int) ^ (p + 1) : Int) : ℚ) := by
      rw [hp]; push_cast; rw [← zpow_natCast]; push_cast; rfl
    rcases lt_or_eq_of_le hN with hlt | heq
    · refine ⟨roundHalfEven (q / (2 : ℚ) ^ ulpExponent prec emin q),
        ulpExponent prec emin q, ?_, hU2, hval⟩
      rw [hpow, ← Int.cast_abs]
      exact_mod_cast hlt
    · have hcases : roundHalfEven (q / (2 : ℚ) ^ ulpExponent prec emin q) = (2 : Int) ^ (p + 1)
          ∨ roundHalfEven (q / (2 : ℚ) ^ ulpExponent prec emin q) = -(2 : Int) ^ (p + 1) := by
        rcases abs_cases (roundHalfEven (q / (2 : ℚ) ^ ulpExponent prec emin q)) with h | h
        · left; omega
        · right; omega
      have h2p : (0 : ℚ) < (2 : ℚ) ^ p := by positivity
      have hhalf : |(((2 : Int) ^ p : Int) : ℚ)| < (2 : ℚ) ^ prec := by
        rw [hpow]; push_cast
        rw [abs_of_pos h2p, pow_succ]
        linarith
      rcases hcases with h | h
      · refine ⟨(2 : Int) ^ p, ulpExponent prec emin q + 1, hhalf, by omega, ?_⟩
        rw [hval, h, zpow_add₀ (by norm_num : (2 : ℚ) ≠ 0)]
        push_cast
        ring
      · refine ⟨-(2 : Int) ^ p, ulpExponent prec emin q + 1, ?_, by omega, ?_⟩
        · rw [Int.cast_neg, abs_neg]; exact hhalf
        · rw [hval, h, zpow_add₀ (by norm_num : (2 : ℚ) ≠ 0)]
          push_cast
          ring

theorem roundDouble_nonneg (q : ℚ) (hq : 0 ≤ q) : 0 ≤ roundDouble q :=
  roundBinary_nonneg _ _ q hq

/-- Every sum of the arithmetic of the program is a value a `float` can hold. -/
theorem isFloatValue_add (a b : FloatVal) : IsFloatValue (a + b) := by
  rw [FloatVal.add_def]
  cases hw : addDouble a b with
  | nan => exact Or.inl rfl
  | inf s => exact Or.inr (Or.inl ⟨s, rfl⟩)
  | fin q =>
    show IsFloatValue (if (2 : ℚ) ^ 128 ≤ |roundFloat q| then FloatVal.inf (decide (q < 0))
      else FloatVal.fin (roundFloat q))
    split_ifs with h
    · exact Or.inr (Or.inl ⟨_, rfl⟩)
    · obtain ⟨n, u, hn, hu, hr⟩ := roundBinary_is_representable 24 (-126) (by norm_num) q
      refine Or.inr (Or.inr ⟨n, u, hn, by omega, ?_, ?_⟩)
      · rw [← hr]; exact not_le.mp h
      · rw [← hr]; rfl

/-- A value a `float` can hold passes an empty history cell unchanged, for every
finite decay. -/
theorem floatValue_add_zero_mul (v : FloatVal) (hv : IsFloatValue v) (d : ℚ) :
    v + 0 * FloatVal.fin d = v := by
  have h0 : (0 : FloatVal) * FloatVal.fin d = FloatVal.fin 0 := by
    show doubleResult (0 * d) = _
    rw [zero_mul, doubleResult_zero]
  rcases hv with rfl | ⟨s, rfl⟩ | hv
  · rw [h0]; rfl
  · rw [h0]; rfl
  · exact float32_add_zero_mul v hv d

/-! ## `ProcessInitialize`, path by path -/

section Init

variable [Zero α]

theorem static_cast_size_t_cast (sizeBits : Nat) (v : Int) :
    ((static_cast_size_t sizeBits v : Nat) : Int) = v % (2 : Int) ^ sizeBits := by
  unfold static_cast_size_t
  exact Int.toNat_of_nonneg (Int.emod_nonneg _ (by positivity))

theorem static_cast_size_t_eq_iff (sizeBits : Nat) (v : Int) :
    ((static_cast_size_t sizeBits v : Nat) : Int) = v ↔ 0 ≤ v ∧ v < (2 : Int) ^ sizeBits := by
  rw [static_cast_size_t_cast]
  have hpos : (0 : Int) < (2 : Int) ^ sizeBits := by positivity
  constructor
  · intro h
    exact ⟨h ▸ Int.emod_nonneg _ (ne_of_gt hpos), h ▸ Int.emod_lt_of_pos _ hpos⟩
  · rintro ⟨h0, h1⟩
    exact Int.emod_eq_of_lt h0 h1

theorem sampleCount_ne_eq_true (q : Int) (n : Nat) : sampleCount_ne q n = true ↔ q ≠ (n : Int) := by
  simp [sampleCount_ne]

theorem sampleCount_ne_eq_false (q : Int) (n : Nat) : sampleCount_ne q n = false ↔ q = (n : Int) := by
  simp [sampleCount_ne]

theorem sampleCount_ofDouble_zero : sampleCount_ofDouble 0 = some 0 := by
  simp [sampleCount_ofDouble]

/-- Evaluation of the conversion for a non-negative value from its integer part. -/
theorem sampleCount_ofDouble_of_floor (d : ℚ) (t : Int) (h0 : 0 ≤ d) (h1 : (t : ℚ) ≤ d)
    (h2 : d < (t : ℚ) + 1) (h3 : t < (2 : Int) ^ 63) : sampleCount_ofDouble d = some t := by
  have hfl : ⌊d⌋ = t := Int.floor_eq_iff.mpr ⟨h1, h2⟩
  have ht0 : (0 : Int) ≤ t := hfl ▸ Int.floor_nonneg.mpr h0
  unfold sampleCount_ofDouble
  simp only [if_pos h0, hfl]
  rw [if_pos ⟨by omega, h3⟩]

theorem ProcessInitialize_zero_delay (sizeBits : Nat) (canAlloc : Nat → Bool)
    (e : EffectEcho α) (hd : e.delay = 0) :
    ProcessInitialize sizeBits canAlloc e = some { result := false, message := false, state := e } := by
  unfold ProcessInitialize
  rw [if_pos hd]

theorem ProcessInitialize_mismatch (sizeBits : Nat) (canAlloc : Nat → Bool)
    (e : EffectEcho α) (q : Int) (hd : e.delay ≠ 0)
    (hq : sampleCount_ofDouble (roundDouble (e.mSampleRate * e.delay)) = some q)
    (hne : q ≠ ((static_cast_size_t sizeBits q : Nat) : Int)) :
    ProcessInitialize sizeBits canAlloc e = some
      { result := false, message := true,
        state := { e with histPos := 0, histLen := static_cast_size_t sizeBits q } } := by
  unfold ProcessInitialize
  rw [if_neg hd]
  simp only [hq]
  rw [if_pos ((sampleCount_ne_eq_true _ _).mpr hne)]

theorem ProcessInitialize_alloc_failed (sizeBits : Nat) (canAlloc : Nat → Bool)
    (e : EffectEcho α) (q : Int) (hd : e.delay ≠ 0)
    (hq : sampleCount_ofDouble (roundDouble (e.mSampleRate * e.delay)) = some q)
    (heq : q = ((static_cast_size_t sizeBits q : Nat) : Int))
    (ha : canAlloc (static_cast_size_t sizeBits q) = false) :
    ProcessInitialize sizeBits canAlloc e = some
      { result := false, message := true,
        state := { e with histPos := 0, histLen := static_cast_size_t sizeBits q } } := by
  unfold ProcessInitialize
  rw [if_neg hd]
  simp only [hq]
  rw [if_neg (by rw [Bool.not_eq_true, sampleCount_ne_eq_false]; exact heq)]
  simp [reinit, ha]

theorem ProcessInitialize_allocated (sizeBits : Nat) (canAlloc : Nat → Bool)
    (e : EffectEcho α) (q : Int) (hd : e.delay ≠ 0)
    (hq : sampleCount_ofDouble (roundDouble (e.mSampleRate * e.delay)) = some q)
    (heq : q = ((static_cast_size_t sizeBits q : Nat) : Int))
    (ha : canAlloc (static_cast_size_t sizeBits q) = true) :
    ProcessInitialize sizeBits canAlloc e = some
      { result := true, message := false,
        state := { e with histPos := 0, histLen := static_cast_size_t sizeBits q,
                          history := some (List.replicate (static_cast_size_t sizeBits q) 0) } } := by
  unfold ProcessInitialize
  rw [if_neg hd]
  simp only [hq]
  rw [if_neg (by rw [Bool.not_eq_true, sampleCount_ne_eq_false]; exact heq)]
  simp [reinit, ha]

/-- Every successful call went through the allocation. -/
theorem ProcessInitialize_success_inv (sizeBits : Nat) (canAlloc : Nat → Bool)
    (e : EffectEcho α) (r : InitResult α)
    (h : ProcessInitialize sizeBits canAlloc e = some r) (hs : r.result = true) :
    e.delay ≠ 0 ∧ ∃ q : Int, sampleCount_ofDouble (roundDouble (e.mSampleRate * e.delay)) = some q ∧
      q = ((static_cast_size_t sizeBits q : Nat) : Int) ∧
      canAlloc (static_cast_size_t sizeBits q) = true ∧
      r = { result := true, message := false,
            state := { e with histPos := 0, histLen := static_cast_size_t sizeBits q,
                              history := some (List.replicate (static_cast_size_t sizeBits q) 0) } } := by
  by_cases hd : e.delay = 0
  · rw [ProcessInitialize_zero_delay sizeBits canAlloc e hd] at h
    cases h
    simp at hs
  · refine ⟨hd, ?_⟩
    cases hq : sampleCount_ofDouble (roundDouble (e.mSampleRate * e.delay)) with
    | none =>
      unfold ProcessInitialize at h
      rw [if_neg hd] at h
      simp [hq] at h
    | some q =>
      refine ⟨q, rfl, ?_⟩
      by_cases hne : q = ((static_cast_size_t sizeBits q : Nat) : Int)
      · cases ha : canAlloc (static_cast_size_t sizeBits q) with
        | false =>
          rw [ProcessInitialize_alloc_failed sizeBits canAlloc e q hd hq hne ha] at h
          cases h
          simp at hs
        | true =>
          rw [ProcessInitialize_allocated sizeBits canAlloc e q hd hq hne ha] at h
          cases h
          exact ⟨hne, rfl, rfl⟩
      · rw [ProcessInitialize_mismatch sizeBits canAlloc e q hd hq hne] at h
        cases h
        simp at hs

theorem sampleCount_ofDouble_some (d : ℚ) (q : Int) (h : sampleCount_ofDouble d = some q) :
    q = if 0 ≤ d then ⌊d⌋ else ⌈d⌉ := by
  unfold sampleCount_ofDouble at h
  simp only at h
  split_ifs at h with h1 h2 h2
  · rw [if_pos h1]; exact (Option.some.inj h).symm
  · rw [if_neg h1]; exact (Option.some.inj h).symm

end Init

/-! ## Claims about `ProcessInitialize` -/

/-- C6 (the code departs from it): with `sampleRate = 100` and `delay = 1/1000` the
product `1/10` converts to the sample count `0`, yet `ProcessInitialize` reports
success and leaves `histLen = 0` with an empty history array; the next
`ProcessBlock` on one sample then addresses `history[0]` outside the array. -/
theorem processInitialize_accepts_zero_length :
    ProcessInitialize 64 (fun _ => true) (⟨100, 1 / 1000, 1 / 2, none, 0, 0⟩ : EffectEcho ℚ)
      = some ⟨true, false, ⟨100, 1 / 1000, 1 / 2, some [], 0, 0⟩⟩ ∧
    ProcessBlock (⟨100, 1 / 1000, 1 / 2, some [], 0, 0⟩ : EffectEcho ℚ) [1] = none := by
  constructor
  · have hr : roundDouble ((100 : ℚ) * (1 / 1000))
        = ((7205759403792794 : Int) : ℚ) * (2 : ℚ) ^ (-56 : Int) :=
      roundDouble_eval _ (-4) 7205759403792794 (-56) (by norm_num) (by norm_num)
        (by norm_num) (by norm_num) (by norm_num) (by norm_num) (by norm_num)
    have hq : sampleCount_ofDouble (roundDouble ((100 : ℚ) * (1 / 1000))) = some 0 := by
      rw [hr]
      exact sampleCount_ofDouble_of_floor _ 0 (by norm_num) (by norm_num) (by norm_num)
        (by norm_num)
    have h := ProcessInitialize_allocated 64 (fun _ => true)
      (⟨100, 1 / 1000, 1 / 2, none, 0, 0⟩ : EffectEcho ℚ) 0 (by norm_num) hq
      (by simp [static_cast_size_t]) rfl
    simpa [static_cast_size_t] using h
  · simp [ProcessBlock, loop, loopBody]

/-- C7 as stated fails: on a 32-bit `size_t`, with `sampleRate = 44100` and
`delay = 100000` the requested count `4410000000` becomes `115032704` in `size_t`;
`ProcessInitialize` returns failure with the capacity message, but an engine that
held a three-sample buffer before the call still holds it afterwards. -/
theorem processInitialize_capacity_keeps_buffer :
    sampleCount_ofDouble (roundDouble ((44100 : ℚ) * 100000)) = some 4410000000 ∧
    static_cast_size_t 32 4410000000 = 115032704 ∧
    ProcessInitialize 32 (fun _ => true) (⟨44100, 100000, 2, some [1, 0, 0], 1, 3⟩ : EffectEcho ℤ)
      = some ⟨false, true, ⟨44100, 100000, 2, some [1, 0, 0], 0, 115032704⟩⟩ ∧
    (⟨44100, 100000, 2, some [1, 0, 0], 0, 115032704⟩ : EffectEcho ℤ).history ≠ none := by
  have hq : sampleCount_ofDouble (roundDouble ((44100 : ℚ) * 100000)) = some 4410000000 := by
    rw [roundDouble_of_eq _ 4410000000 0 (by norm_num) (by norm_num) (by norm_num)]
    exact sampleCount_ofDouble_of_floor _ 4410000000 (by norm_num) (by norm_num) (by norm_num)
      (by norm_num)
  have hc : static_cast_size_t 32 4410000000 = 115032704 := by
    simp [static_cast_size_t]
  refine ⟨hq, hc, ?_, by simp⟩
  have h := ProcessInitialize_mismatch 32 (fun _ => true)
    (⟨44100, 100000, 2, some [1, 0, 0], 1, 3⟩ : EffectEcho ℤ) 4410000000 (by norm_num) hq
    (by rw [hc]; norm_num)
  rw [hc] at h
  exact h

/-- C7 (amended): for every engine state, every width of `size_t` and every sample
rate and delay whose requested sample count (within the 64-bit range of
`sampleCount`) does not survive the conversion to `size_t` unchanged,
`ProcessInitialize` returns failure through the capacity message, resets the
cursor to `0` and leaves the history exactly as it was before the call: an engine
that held no buffer holds none afterwards. -/
theorem processInitialize_capacity_rejected [Zero α] (sizeBits : Nat) (canAlloc : Nat → Bool)
    (e : EffectEcho α) (q : Int)
    (hq : sampleCount_ofDouble (roundDouble (e.mSampleRate * e.delay)) = some q)
    (hne : ((static_cast_size_t sizeBits q : Nat) : Int) ≠ q) :
    ∃ r, ProcessInitialize sizeBits canAlloc e = some r ∧ r.result = false ∧
      r.message = true ∧ r.state.histPos = 0 ∧ r.state.history = e.history ∧
      (e.history = none → r.state.history = none) := by
  have hd : e.delay ≠ 0 := by
    intro h0
    rw [h0, mul_zero, roundDouble_zero, sampleCount_ofDouble_zero] at hq
    cases hq
    exact hne (by simp [static_cast_size_t])
  exact ⟨_, ProcessInitialize_mismatch sizeBits canAlloc e q hd hq (Ne.symm hne),
    rfl, rfl, rfl, rfl, fun h => h⟩

/-- Witness for C7 (amended): a never-initialised engine on a 32-bit `size_t`. -/
theorem processInitialize_capacity_rejected_witness :
    ∃ r, ProcessInitialize 32 (fun _ => true) (⟨44100, 100000, 2, none, 0, 0⟩ : EffectEcho ℤ)
        = some r ∧ r.result = false ∧ r.message = true ∧ r.state.histPos = 0 ∧
      r.state.history = none ∧ ((none : Option (List ℤ)) = none → r.state.history = none) :=
  processInitialize_capacity_rejected 32 (fun _ => true)
    (⟨44100, 100000, 2, none, 0, 0⟩ : EffectEcho ℤ) 4410000000
    (by
      rw [roundDouble_of_eq _ 4410000000 0 (by norm_num) (by norm_num) (by norm_num)]
      exact sampleCount_ofDouble_of_floor _ 4410000000 (by norm_num) (by norm_num)
        (by norm_num) (by norm_num))
    (by simp [static_cast_size_t])

/-- C8: with `delay = 0`, whatever the sample rate and the engine state,
`ProcessInitialize` returns failure, shows no capacity message and leaves the whole
state (`histPos`, `histLen`, the history buffer) exactly as it was. -/
theorem processInitialize_zero_delay [Zero α] (sizeBits : Nat) (canAlloc : Nat → Bool)
    (e : EffectEcho α) (hd : e.delay = 0) :
    ProcessInitialize sizeBits canAlloc e
      = some { result := false, message := false, state := e } :=
  ProcessInitialize_zero_delay sizeBits canAlloc e hd

/-- Witness for C8: an engine holding a buffer with a non-zero cursor. -/
theorem processInitialize_zero_delay_witness :
    ProcessInitialize 64 (fun _ => true) (⟨44100, 0, 2, some [5, 7, 9], 2, 3⟩ : EffectEcho ℤ)
      = some ⟨false, false, ⟨44100, 0, 2, some [5, 7, 9], 2, 3⟩⟩ :=
  processInitialize_zero_delay 64 (fun _ => true)
    (⟨44100, 0, 2, some [5, 7, 9], 2, 3⟩ : EffectEcho ℤ) rfl

/-- C9: whenever `ProcessInitialize` succeeds, whatever the state before the call,
the resulting state has `histPos = 0` and a history of exactly `histLen` samples,
all zero; the result is the same from every earlier state with the same sample
rate, delay and decay, so nothing of the earlier buffer, cursor or length
survives. -/
theorem processInitialize_success_state [Zero α] (sizeBits : Nat) (canAlloc : Nat → Bool)
    (e : EffectEcho α) (r : InitResult α)
    (h : ProcessInitialize sizeBits canAlloc e = some r) (hs : r.result = true) :
    r.state.histPos = 0 ∧ r.state.history = some (List.replicate r.state.histLen 0) ∧
      ∀ e' : EffectEcho α, e'.mSampleRate = e.mSampleRate → e'.delay = e.delay →
        e'.decay = e.decay → ProcessInitialize sizeBits canAlloc e' = some r := by
  obtain ⟨hd, q, hq, heq, ha, hr⟩ := ProcessInitialize_success_inv sizeBits canAlloc e r h hs
  subst hr
  refine ⟨rfl, rfl, ?_⟩
  intro e' h1 h2 h3
  rw [ProcessInitialize_allocated sizeBits canAlloc e' q (by rw [h2]; exact hd)
    (by rw [h1, h2]; exact hq) heq ha]
  simp [h1, h2, h3]

/-- Witness for C9: re-initialisation of an engine left with cursor `1` and a
non-zero buffer; `8000 * (1/1000)` gives eight samples. -/
theorem processInitialize_success_state_witness :
    ProcessInitialize 64 (fun _ => true) (⟨8000, 1 / 1000, 2, some [5, 7], 1, 2⟩ : EffectEcho ℤ)
      = some ⟨true, false, ⟨8000, 1 / 1000, 2, some (List.replicate 8 0), 0, 8⟩⟩ ∧
    (0 : Nat) = 0 ∧ some (List.replicate 8 (0 : ℤ)) = some (List.replicate 8 0) ∧
      ∀ e' : EffectEcho ℤ, e'.mSampleRate = 8000 → e'.delay = 1 / 1000 → e'.decay = 2 →
        ProcessInitialize 64 (fun _ => true) e'
          = some ⟨true, false, ⟨8000, 1 / 1000, 2, some (List.replicate 8 0), 0, 8⟩⟩ :=
  have h : ProcessInitialize 64 (fun _ => true)
      (⟨8000, 1 / 1000, 2, some [5, 7], 1, 2⟩ : EffectEcho ℤ)
      = some ⟨true, false, ⟨8000, 1 / 1000, 2, some (List.replicate 8 0), 0, 8⟩⟩ := by
    have hq : sampleCount_ofDouble (roundDouble ((8000 : ℚ) * (1 / 1000))) = some 8 := by
      rw [roundDouble_of_eq _ 8 0 (by norm_num) (by norm_num) (by norm_num)]
      exact sampleCount_ofDouble_of_floor _ 8 (by norm_num) (by norm_num) (by norm_num)
        (by norm_num)
    have h := ProcessInitialize_allocated 64 (fun _ => true)
      (⟨8000, 1 / 1000, 2, some [5, 7], 1, 2⟩ : EffectEcho ℤ) 8 (by norm_num) hq
      (by simp [static_cast_size_t]) rfl
    simpa [static_cast_size_t] using h
  ⟨h, processInitialize_success_state 64 (fun _ => true)
    (⟨8000, 1 / 1000, 2, some [5, 7], 1, 2⟩ : EffectEcho ℤ) _ h rfl⟩

/-- C10 as stated fails: with `sampleRate = 44100` and `delay = 0.1875` (both exact
in `double`) the product is `8268.75`, whose nearest integer is `8269`, but
`ProcessInitialize` succeeds with `histLen = 8268`. -/
theorem processInitialize_histLen_not_rounded :
    ProcessInitialize 64 (fun _ => true) (⟨44100, 3 / 16, 2, none, 0, 0⟩ : EffectEcho ℤ)
      = some ⟨true, false, ⟨44100, 3 / 16, 2, some (List.replicate 8268 0), 0, 8268⟩⟩ ∧
    round ((44100 : ℚ) * (3 / 16)) = 8269 := by
  constructor
  · have hq : sampleCount_ofDouble (roundDouble ((44100 : ℚ) * (3 / 16))) = some 8268 := by
      rw [roundDouble_of_eq _ 33075 (-2) (by norm_num) (by norm_num) (by norm_num)]
      exact sampleCount_ofDouble_of_floor _ 8268 (by norm_num) (by norm_num) (by norm_num)
        (by norm_num)
    have h := ProcessInitialize_allocated 64 (fun _ => true)
      (⟨44100, 3 / 16, 2, none, 0, 0⟩ : EffectEcho ℤ) 8268 (by norm_num) hq
      (by simp [static_cast_size_t]) rfl
    have hc : static_cast_size_t 64 8268 = 8268 := by simp [static_cast_size_t]
    rw [hc] at h
    exact h
  · rw [round_eq, Int.floor_eq_iff]
    constructor <;> norm_num

/-- The `double` product of `44100` and the `double` nearest to `0.3` is exactly
`13230`, although the exact product is below it. -/
theorem roundDouble_44100_mul_three_tenths :
    roundDouble ((44100 : ℚ) * (5404319552844595 / 18014398509481984)) = 13230 := by
  have h := roundDouble_eval ((44100 : ℚ) * (5404319552844595 / 18014398509481984)) 13 7273269417738240 (-39)
    (by norm_num) (by norm_num) (by norm_num) (by norm_num) (by norm_num) (by norm_num)
    (by norm_num)
  rw [h]
  norm_num

/-- C10 (amended): whenever `ProcessInitialize` succeeds, `histLen` is the `double`
product `mSampleRate * delay` (the exact product rounded to the nearest `double`)
with its fractional part discarded (truncation toward zero), which for a positive
sample rate and a positive delay is the floor of that `double`, not the nearest
integer of the product; `sampleRate = 44100` and `delay = 1` give `histLen = 44100`,
and `sampleRate = 44100` with the `double` nearest to `0.3` gives `13230`. -/
theorem processInitialize_histLen_truncated [Zero α] (sizeBits : Nat) (canAlloc : Nat → Bool)
    (e : EffectEcho α) (r : InitResult α)
    (h : ProcessInitialize sizeBits canAlloc e = some r) (hs : r.result = true) :
    ((r.state.histLen : Int) = if 0 ≤ roundDouble (e.mSampleRate * e.delay)
        then ⌊roundDouble (e.mSampleRate * e.delay)⌋
        else ⌈roundDouble (e.mSampleRate * e.delay)⌉) ∧
      (0 < e.mSampleRate → 0 < e.delay →
        (r.state.histLen : Int) = ⌊roundDouble (e.mSampleRate * e.delay)⌋) ∧
      (e.mSampleRate = 44100 → e.delay = 1 → r.state.histLen = 44100) ∧
      (e.mSampleRate = 44100 → e.delay = 5404319552844595 / 18014398509481984 →
        r.state.histLen = 13230) := by
  obtain ⟨hd, q, hq, heq, ha, hr⟩ := ProcessInitialize_success_inv sizeBits canAlloc e r h hs
  subst hr
  have hlen : ((static_cast_size_t sizeBits q : Nat) : Int)
      = if 0 ≤ roundDouble (e.mSampleRate * e.delay)
        then ⌊roundDouble (e.mSampleRate * e.delay)⌋
        else ⌈roundDouble (e.mSampleRate * e.delay)⌉ := by
    rw [← heq]; exact sampleCount_ofDouble_some _ _ hq
  refine ⟨hlen, ?_, ?_, ?_⟩
  · intro h1 h2
    have hpos : 0 ≤ roundDouble (e.mSampleRate * e.delay) :=
      roundDouble_nonneg _ (le_of_lt (mul_pos h1 h2))
    rw [if_pos hpos] at hlen
    exact hlen
  · intro h1 h2
    have hval : roundDouble (e.mSampleRate * e.delay) = ((44100 : Int) : ℚ) := by
      rw [h1, h2, roundDouble_of_eq _ 44100 0 (by norm_num) (by norm_num) (by norm_num)]
      norm_num
    rw [hval, if_pos (by norm_num), Int.floor_intCast] at hlen
    change ((static_cast_size_t sizeBits q : Nat) : Int) = ((44100 : Nat) : Int) at hlen
    exact Int.ofNat.inj hlen
  · intro h1 h2
    have hval : roundDouble (e.mSampleRate * e.delay) = ((13230 : Int) : ℚ) := by
      rw [h1, h2, roundDouble_44100_mul_three_tenths]
      norm_num
    rw [hval, if_pos (by norm_num), Int.floor_intCast] at hlen
    change ((static_cast_size_t sizeBits q : Nat) : Int) = ((13230 : Nat) : Int) at hlen
    exact Int.ofNat.inj hlen

/-- Witness for C10 (amended): `sampleRate = 44100` and the `double` nearest to `0.3`
on an engine that still holds an old buffer. -/
theorem processInitialize_histLen_truncated_witness :
    ProcessInitialize 64 (fun _ => true)
        (⟨44100, 5404319552844595 / 18014398509481984, 2, some [5, 7], 1, 2⟩ : EffectEcho ℤ)
      = some ⟨true, false,
          ⟨44100, 5404319552844595 / 18014398509481984, 2, some (List.replicate 13230 0), 0, 13230⟩⟩ ∧
    (13230 : Nat) = 13230 :=
  have h : ProcessInitialize 64 (fun _ => true)
      (⟨44100, 5404319552844595 / 18014398509481984, 2, some [5, 7], 1, 2⟩ : EffectEcho ℤ)
      = some ⟨true, false,
          ⟨44100, 5404319552844595 / 18014398509481984, 2, some (List.replicate 13230 0), 0, 13230⟩⟩ := by
    have hq : sampleCount_ofDouble (roundDouble ((44100 : ℚ) * (5404319552844595 / 18014398509481984)))
        = some 13230 := by
      rw [roundDouble_44100_mul_three_tenths]
      exact sampleCount_ofDouble_of_floor _ 13230 (by norm_num) (by norm_num) (by norm_num)
        (by norm_num)
    have hc : static_cast_size_t 64 13230 = 13230 := by simp [static_cast_size_t]
    have h := ProcessInitialize_allocated 64 (fun _ => true)
      (⟨44100, 5404319552844595 / 18014398509481984, 2, some [5, 7], 1, 2⟩ : EffectEcho ℤ) 13230 (by norm_num) hq
      (by rw [hc]; norm_num) rfl
    rw [hc] at h
    exact h
  ⟨h, (processInitialize_histLen_truncated 64 (fun _ => true)
    (⟨44100, 5404319552844595 / 18014398509481984, 2, some [5, 7], 1, 2⟩ : EffectEcho ℤ) _ h rfl).2.2.2 rfl rfl⟩

/-! ## Cursor, frame and lifecycle of `ProcessBlock` and `ProcessFinalize` -/

/-- The cursor left by the loop after at least one sample: one past the cell written
last. -/
theorem run_pos_cons [Zero α] [Add α] [Mul α] (L : Nat) (d : α) (hL : 1 ≤ L) (xs : List α) :
    ∀ (x : α) (buf : List α) (pos : Nat), pos ≤ L →
      (run L d buf pos (x :: xs)).2.2 = (pos + xs.length) % L + 1 := by
  induction xs with
  | nil =>
    intro x buf pos hp
    simp [run, cell_eq_mod hL hp]
  | cons x' xs ih =>
    intro x buf pos hp
    have hc : cell L pos < L := cell_lt hL hp
    have hstep := ih x' (buf.set (cell L pos) (x + buf.getD (cell L pos) 0 * d))
      (cell L pos + 1) hc
    have hunf : (run L d buf pos (x :: x' :: xs)).2.2
        = (run L d (buf.set (cell L pos) (x + buf.getD (cell L pos) 0 * d))
            (cell L pos + 1) (x' :: xs)).2.2 := rfl
    rw [hunf, hstep, cell_eq_mod hL hp]
    congr 1
    rw [List.length_cons, Nat.add_assoc, Nat.mod_add_mod, Nat.add_comm 1 xs.length]

/-- C11 as stated fails: with `histLen = 3`, cursor `2` and a block of one sample the
stored cursor after the call is `3`, while `(2 + 1) mod 3 = 0`. -/
theorem processBlock_cursor_not_reduced :
    ProcessBlock (⟨44100, 1, 2, some [0, 0, 0], 2, 3⟩ : EffectEcho ℤ) [1]
      = some (1, [1], ⟨44100, 1, 2, some [0, 0, 1], 3, 3⟩) ∧
    (⟨44100, 1, 2, some [0, 0, 1], 3, 3⟩ : EffectEcho ℤ).histPos ≠ (2 + 1) % 3 := by
  decide

/-- C11 (amended): for a state with a history array of `histLen ≥ 1` samples and
cursor `c ≤ histLen`, the cursor stored after `ProcessBlock` on `N` samples is
congruent to `c + N` modulo `histLen` and lies in `[0, histLen]`: it is `c` for
`N = 0` and `((c + N - 1) mod histLen) + 1` for `N ≥ 1`; the cell the next call
addresses is `(c + N) mod histLen`. -/
theorem processBlock_stored_cursor [Zero α] [Add α] [Mul α] (e : EffectEcho α) (x : List α)
    (hwf : WellFormed e) :
    ∃ y e', ProcessBlock e x = some (x.length, y, e') ∧
      e'.histPos % e.histLen = (e.histPos + x.length) % e.histLen ∧
      e'.histPos ≤ e.histLen ∧
      (x = [] → e'.histPos = e.histPos) ∧
      (x ≠ [] → e'.histPos = (e.histPos + x.length - 1) % e.histLen + 1) ∧
      cell e.histLen e'.histPos = (e.histPos + x.length) % e.histLen := by
  obtain ⟨⟨buf, hb, hlen⟩, hL, hp⟩ := hwf
  refine ⟨_, _, ProcessBlock_eq_run e buf x hb hlen hL hp, ?_⟩
  simp only
  have hle := run_pos_le e.histLen e.decay hL x buf e.histPos hp
  cases x with
  | nil =>
    refine ⟨by simp [run], by simpa [run] using hp, fun _ => by simp [run],
      fun h => absurd rfl h, ?_⟩
    simp [run, cell_eq_mod hL hp]
  | cons x0 xs =>
    have hpos := run_pos_cons e.histLen e.decay hL xs x0 buf e.histPos hp
    have hmod : ((e.histPos + xs.length) % e.histLen + 1) % e.histLen
        = (e.histPos + (xs.length + 1)) % e.histLen := by
      rw [Nat.mod_add_mod, Nat.add_assoc]
    refine ⟨?_, hle, fun h => by simp at h, fun _ => ?_, ?_⟩
    · rw [hpos, List.length_cons, hmod]
    · rw [hpos, List.length_cons]
      congr 2
    · rw [cell_eq_mod hL hle, hpos, List.length_cons, hmod]

/-- Witness for C11 (amended): cursor `2` of `3`, a block of four samples. -/
theorem processBlock_stored_cursor_witness :
    ∃ y e', ProcessBlock (⟨44100, 1, 2, some [0, 0, 0], 2, 3⟩ : EffectEcho ℤ) [1, 2, 3, 4]
        = some (4, y, e') ∧
      e'.histPos % 3 = (2 + 4) % 3 ∧ e'.histPos ≤ 3 ∧
      (([1, 2, 3, 4] : List ℤ) = [] → e'.histPos = 2) ∧
      (([1, 2, 3, 4] : List ℤ) ≠ [] → e'.histPos = (2 + 4 - 1) % 3 + 1) ∧
      cell 3 e'.histPos = (2 + 4) % 3 :=
  processBlock_stored_cursor (⟨44100, 1, 2, some [0, 0, 0], 2, 3⟩ : EffectEcho ℤ) [1, 2, 3, 4]
    ⟨⟨[0, 0, 0], rfl, rfl⟩, by decide, by decide⟩

theorem loop_length [Add α] [Mul α] (x : List α) :
    ∀ (e : EffectEcho α) (y : List α) (e' : EffectEcho α),
      loop e x = some (y, e') → y.length = x.length := by
  induction x with
  | nil =>
    intro e y e' h
    simp only [loop, Option.some.injEq, Prod.mk.injEq] at h
    rw [← h.1]
  | cons a x ih =>
    intro e y e' h
    rw [loop] at h
    cases hb : loopBody e a with
    | none => simp [hb] at h
    | some r =>
      obtain ⟨y0, e1⟩ := r
      cases hl : loop e1 x with
      | none => simp [hb, hl] at h
      | some r2 =>
        obtain ⟨ys, e2⟩ := r2
        simp only [hb, hl, Option.some.injEq, Prod.mk.injEq] at h
        rw [← h.1, List.length_cons, List.length_cons, ih e1 ys e2 hl]

/-- A call on a well-formed state returns and leaves a well-formed state with the
same length and decay. -/
theorem ProcessBlock_wf [Zero α] [Add α] [Mul α] (e : EffectEcho α) (x : List α)
    (hwf : WellFormed e) :
    ∃ y e', ProcessBlock e x = some (x.length, y, e') ∧ y.length = x.length ∧
      WellFormed e' ∧ e'.histLen = e.histLen ∧ e'.decay = e.decay := by
  obtain ⟨⟨buf, hb, hlen⟩, hL, hp⟩ := hwf
  refine ⟨_, _, ProcessBlock_eq_run e buf x hb hlen hL hp, run_length_out _ _ _ _ _,
    ⟨⟨_, rfl, ?_⟩, hL, run_pos_le _ _ hL _ _ _ hp⟩, rfl, rfl⟩
  rw [run_length_buf]; exact hlen

/-- Any number of calls on a well-formed state return and leave a well-formed
state. -/
theorem ProcessBlocks_wf [Zero α] [Add α] [Mul α] (bs : List (List α)) :
    ∀ e : EffectEcho α, WellFormed e →
      ∃ ys e', ProcessBlocks e bs = some (ys, e') ∧ WellFormed e' ∧
        e'.histLen = e.histLen ∧ e'.decay = e.decay := by
  induction bs with
  | nil => intro e hwf; exact ⟨[], e, rfl, hwf, rfl, rfl⟩
  | cons b bs ih =>
    intro e hwf
    obtain ⟨y, e1, h1, _, hwf1, hl1, hd1⟩ := ProcessBlock_wf e b hwf
    obtain ⟨ys, e2, h2, hwf2, hl2, hd2⟩ := ih e1 hwf1
    refine ⟨y :: ys, e2, ?_, hwf2, by rw [hl2, hl1], by rw [hd2, hd1]⟩
    simp [ProcessBlocks, h1, h2]

/-- After a successful `ProcessInitialize` that left `histLen ≥ 1`, any number of
calls followed by one more block stay inside the history array. -/
theorem ProcessBlocks_after_init [Semiring α] (sizeBits : Nat) (canAlloc : Nat → Bool)
    (e : EffectEcho α) (r : InitResult α) (bs : List (List α)) (x : List α)
    (h : ProcessInitialize sizeBits canAlloc e = some r) (hs : r.result = true)
    (hlen : 1 ≤ r.state.histLen) :
    ∃ ys e1 y e2, ProcessBlocks r.state bs = some (ys, e1) ∧
      ProcessBlock e1 x = some (x.length, y, e2) := by
  obtain ⟨_, q, _, _, _, hr⟩ := ProcessInitialize_success_inv sizeBits canAlloc e r h hs
  have hwf : WellFormed r.state := by
    rw [hr] at hlen ⊢
    exact ⟨⟨_, rfl, by simp⟩, hlen, Nat.zero_le _⟩
  obtain ⟨ys, e1, h1, hwf1, _, _⟩ := ProcessBlocks_wf bs _ hwf
  obtain ⟨y, e2, h2, _⟩ := ProcessBlock_wf e1 x hwf1
  exact ⟨ys, e1, y, e2, h1, h2⟩

/-- C12 (the code departs from it): with `sampleRate = 200` and `delay = 1/1000`
`ProcessInitialize` succeeds with `histLen = 0` and an empty history array; two
calls of `ProcessBlock` on empty blocks keep that state, and the next call on two
samples addresses `history[0]` outside the array. -/
theorem processBlock_out_of_bounds_after_init :
    ProcessInitialize 64 (fun _ => true) (⟨200, 1 / 1000, 1 / 2, none, 0, 0⟩ : EffectEcho ℚ)
      = some ⟨true, false, ⟨200, 1 / 1000, 1 / 2, some [], 0, 0⟩⟩ ∧
    ProcessBlocks (⟨200, 1 / 1000, 1 / 2, some [], 0, 0⟩ : EffectEcho ℚ) [[], []]
      = some ([[], []], ⟨200, 1 / 1000, 1 / 2, some [], 0, 0⟩) ∧
    ProcessBlock (⟨200, 1 / 1000, 1 / 2, some [], 0, 0⟩ : EffectEcho ℚ) [1, 2] = none := by
  refine ⟨?_, ?_, ?_⟩
  · have hr : roundDouble ((200 : ℚ) * (1 / 1000))
        = ((7205759403792794 : Int) : ℚ) * (2 : ℚ) ^ (-55 : Int) :=
      roundDouble_eval _ (-3) 7205759403792794 (-55) (by norm_num) (by norm_num)
        (by norm_num) (by norm_num) (by norm_num) (by norm_num) (by norm_num)
    have hq : sampleCount_ofDouble (roundDouble ((200 : ℚ) * (1 / 1000))) = some 0 := by
      rw [hr]
      exact sampleCount_ofDouble_of_floor _ 0 (by norm_num) (by norm_num) (by norm_num)
        (by norm_num)
    have h := ProcessInitialize_allocated 64 (fun _ => true)
      (⟨200, 1 / 1000, 1 / 2, none, 0, 0⟩ : EffectEcho ℚ) 0 (by norm_num) hq
      (by simp [static_cast_size_t]) rfl
    simpa [static_cast_size_t] using h
  · simp [ProcessBlocks, ProcessBlock, loop]
  · simp [ProcessBlock, loop, loopBody]

/-- C13: on an empty block `ProcessBlock` returns `0`, writes no output sample and
leaves the whole state unchanged, whatever the state; whenever a call returns, the
returned value is `blockLen` and equals the number of output samples; and on every
state with a history array of `histLen ≥ 1` samples the call does return. -/
theorem processBlock_empty_and_count [Zero α] [Add α] [Mul α] (e : EffectEcho α) :
    ProcessBlock e [] = some (0, [], e) ∧
    (∀ (x y : List α) (n : Nat) (e' : EffectEcho α),
      ProcessBlock e x = some (n, y, e') → n = x.length ∧ y.length = n) ∧
    (∀ x : List α, WellFormed e →
      ∃ y e', ProcessBlock e x = some (x.length, y, e') ∧ y.length = x.length) := by
  refine ⟨rfl, ?_, ?_⟩
  · intro x y n e' h
    unfold ProcessBlock at h
    cases hl : loop e x with
    | none => simp [hl] at h
    | some r =>
      obtain ⟨y1, e1⟩ := r
      simp only [hl, Option.some.injEq, Prod.mk.injEq] at h
      obtain ⟨hn, hy, _⟩ := h
      rw [← hn, ← hy]
      exact ⟨rfl, loop_length x e y1 e1 hl⟩
  · intro x hwf
    obtain ⟨y, e', h, hy, _⟩ := ProcessBlock_wf e x hwf
    exact ⟨y, e', h, hy⟩

/-- Witness for C13: a call on three samples returns `3` and three outputs. -/
theorem processBlock_empty_and_count_witness :
    ProcessBlock (⟨44100, 1, 2, some [5, 7, 9], 3, 3⟩ : EffectEcho ℤ) [4, 5, 6]
      = some (3, [14, 19, 24], ⟨44100, 1, 2, some [14, 19, 24], 3, 3⟩) ∧
    (3 : Nat) = ([4, 5, 6] : List ℤ).length ∧ ([14, 19, 24] : List ℤ).length = 3 :=
  have h : ProcessBlock (⟨44100, 1, 2, some [5, 7, 9], 3, 3⟩ : EffectEcho ℤ) [4, 5, 6]
      = some (3, [14, 19, 24], ⟨44100, 1, 2, some [14, 19, 24], 3, 3⟩) := by decide
  ⟨h, (processBlock_empty_and_count (⟨44100, 1, 2, some [5, 7, 9], 3, 3⟩ : EffectEcho ℤ)).2.1
    [4, 5, 6] [14, 19, 24] 3 ⟨44100, 1, 2, some [14, 19, 24], 3, 3⟩ h⟩

/-- C14: `ProcessFinalize` returns `true` and leaves no history buffer, from every
state; a second application returns `true` again and yields the same state as the
first; on a state without a buffer it changes nothing. -/
theorem processFinalize_idempotent (e : EffectEcho α) :
    (ProcessFinalize e).1 = true ∧ (ProcessFinalize e).2.history = none ∧
    (ProcessFinalize (ProcessFinalize e).2).1 = true ∧
    (ProcessFinalize (ProcessFinalize e).2).2 = (ProcessFinalize e).2 ∧
    (e.history = none → (ProcessFinalize e).2 = e) := by
  refine ⟨rfl, rfl, rfl, rfl, ?_⟩
  intro h
  cases e
  simp only [ProcessFinalize] at h ⊢
  simp_all

/-- Witness for C14: a never-initialised engine is left as it is. -/
theorem processFinalize_idempotent_witness :
    (ProcessFinalize (⟨44100, 1, 2, none, 0, 0⟩ : EffectEcho ℤ)).2
      = ⟨44100, 1, 2, none, 0, 0⟩ :=
  (processFinalize_idempotent (⟨44100, 1, 2, none, 0, 0⟩ : EffectEcho ℤ)).2.2.2.2 rfl

theorem run_pos_mod [Zero α] [Add α] [Mul α] (L : Nat) (d : α) (hL : 1 ≤ L) (xs : List α)
    (buf : List α) (pos : Nat) (hp : pos ≤ L) :
    (run L d buf pos xs).2.2 % L = (pos + xs.length) % L := by
  cases xs with
  | nil => simp [run]
  | cons x xs =>
    rw [run_pos_cons L d hL xs x buf pos hp, List.length_cons, Nat.mod_add_mod, Nat.add_assoc]

theorem getD_append_length [Zero α] (l : List α) (v : α) (n : Nat) (h : l.length = n) :
    (l ++ [v]).getD n 0 = v := by
  subst h
  simp [List.getD_eq_getElem?_getD]

theorem run_pos_snoc [Zero α] [Add α] [Mul α] (L : Nat) (d : α) (hL : 1 ≤ L) (xs : List α)
    (a : α) (buf : List α) (pos : Nat) (hp : pos ≤ L) :
    (run L d buf pos (xs ++ [a])).2.2 = (pos + xs.length) % L + 1 := by
  have hle := run_pos_le L d hL xs buf pos hp
  rw [run_append]
  simp only [run]
  rw [cell_eq_mod hL hle, run_pos_mod L d hL xs buf pos hp]

/-- The cell written last holds the last output sample. -/
theorem run_last [Zero α] [Add α] [Mul α] (L : Nat) (d : α) (hL : 1 ≤ L) (xs : List α) (a : α)
    (buf : List α) (pos : Nat) (hlen : buf.length = L) (hp : pos ≤ L) :
    (run L d buf pos (xs ++ [a])).2.1.getD ((pos + xs.length) % L) 0
      = (run L d buf pos (xs ++ [a])).1.getD xs.length 0 := by
  have hle := run_pos_le L d hL xs buf pos hp
  have hc : cell L (run L d buf pos xs).2.2 = (pos + xs.length) % L := by
    rw [cell_eq_mod hL hle, run_pos_mod L d hL xs buf pos hp]
  have hlt : (pos + xs.length) % L < (run L d buf pos xs).2.1.length := by
    rw [run_length_buf, hlen]; exact Nat.mod_lt _ (by omega)
  rw [run_append]
  simp only [run, hc]
  rw [getD_set_self _ _ _ hlt]
  exact (getD_append_length _ _ _ (run_length_out _ _ _ _ _)).symm

/-- C16: for a state with a history array of `histLen ≥ 1` samples and
`histPos ≤ histLen`, `ProcessBlock` returns, keeps `histPos ≤ histLen` and leaves
`histLen` and the size of the buffer unchanged; after a block of at least one sample
`histPos` is one past the cell `c` that received the last output sample, so it lies
in `[1, histLen]` and equals `histLen` exactly when `c` is the final cell
`histLen - 1`. -/
theorem processBlock_cursor_range [Zero α] [Add α] [Mul α] (e : EffectEcho α) (x : List α)
    (hwf : WellFormed e) :
    ∃ y e' buf buf', ProcessBlock e x = some (x.length, y, e') ∧
      e.history = some buf ∧ e'.history = some buf' ∧ buf'.length = buf.length ∧
      e'.histLen = e.histLen ∧ e'.histPos ≤ e'.histLen ∧
      (x ≠ [] → ∃ c, c < e.histLen ∧ buf'.getD c 0 = y.getD (x.length - 1) 0 ∧
        e'.histPos = c + 1 ∧ 1 ≤ e'.histPos ∧ (e'.histPos = e'.histLen ↔ c = e.histLen - 1)) := by
  obtain ⟨⟨buf, hb, hlen⟩, hL, hp⟩ := hwf
  refine ⟨_, _, buf, _, ProcessBlock_eq_run e buf x hb hlen hL hp, hb, rfl,
    run_length_buf _ _ _ _ _, rfl, run_pos_le _ _ hL _ _ _ hp, ?_⟩
  intro hne
  rcases List.eq_nil_or_concat x with h | ⟨xs, a, h⟩
  · exact absurd h hne
  · rw [List.concat_eq_append] at h
    subst h
    have hpos := run_pos_snoc e.histLen e.decay hL xs a buf e.histPos hp
    have hlast := run_last e.histLen e.decay hL xs a buf e.histPos hlen hp
    have hlt : (e.histPos + xs.length) % e.histLen < e.histLen := Nat.mod_lt _ (by omega)
    refine ⟨(e.histPos + xs.length) % e.histLen, hlt, ?_, hpos, ?_, ?_⟩
    · simpa using hlast
    · simp only [hpos]; omega
    · simp only [hpos]; omega

/-- Witness for C16: cursor parked at `histLen = 3`, a block of three samples. -/
theorem processBlock_cursor_range_witness :
    ∃ y e' buf buf', ProcessBlock (⟨44100, 1, 2, some [5, 7, 9], 3, 3⟩ : EffectEcho ℤ) [4, 5, 6]
        = some (3, y, e') ∧
      (some [5, 7, 9] : Option (List ℤ)) = some buf ∧ e'.history = some buf' ∧
      buf'.length = buf.length ∧ e'.histLen = 3 ∧ e'.histPos ≤ e'.histLen ∧
      (([4, 5, 6] : List ℤ) ≠ [] → ∃ c, c < 3 ∧ buf'.getD c 0 = y.getD (3 - 1) 0 ∧
        e'.histPos = c + 1 ∧ 1 ≤ e'.histPos ∧ (e'.histPos = e'.histLen ↔ c = 3 - 1)) :=
  processBlock_cursor_range (⟨44100, 1, 2, some [5, 7, 9], 3, 3⟩ : EffectEcho ℤ) [4, 5, 6]
    ⟨⟨[5, 7, 9], rfl, rfl⟩, by decide, by decide⟩

theorem mod_shift_injective (L pos i j : Nat) (hi : i < L) (hj : j < L)
    (h : (pos + i) % L = (pos + j) % L) : i = j := by
  have key : ∀ a b : Nat, a ≤ b → b < L → (pos + a) % L = (pos + b) % L → a = b := by
    intro a b hab hb hmod
    have hdvd : L ∣ (pos + b) - (pos + a) :=
      (Nat.modEq_iff_dvd' (by omega)).mp hmod
    have hsub : (pos + b) - (pos + a) = b - a := by omega
    rw [hsub] at hdvd
    have := Nat.eq_zero_of_dvd_of_lt hdvd (by omega)
    omega
  rcases Nat.le_total i j with hij | hij
  · exact key i j hij hj h
  · exact (key j i hij hi h.symm).symm

/-- The frame of the loop on a block no longer than the buffer: the cell visited at
step `i` ends with the output of step `i`, every cell not visited keeps its
content. -/
theorem run_frame [Zero α] [Add α] [Mul α] (L : Nat) (d : α) (hL : 1 ≤ L) (xs : List α) :
    ∀ (buf : List α) (pos : Nat), buf.length = L → pos ≤ L → xs.length ≤ L →
      (∀ i, i < xs.length →
        (run L d buf pos xs).2.1.getD ((pos + i) % L) 0 = (run L d buf pos xs).1.getD i 0) ∧
      (∀ j, (∀ i, i < xs.length → (pos + i) % L ≠ j) →
        (run L d buf pos xs).2.1.getD j 0 = buf.getD j 0) := by
  induction xs with
  | nil =>
    intro buf pos _ _ _
    exact ⟨fun i hi => by simp at hi, fun j _ => by simp [run]⟩
  | cons x xs ih =>
    intro buf pos hlen hp hN
    have hc : cell L pos < L := cell_lt hL hp
    have hcm : cell L pos = pos % L := cell_eq_mod hL hp
    have hN' : xs.length + 1 ≤ L := by simpa using hN
    obtain ⟨ih1, ih2⟩ := ih (buf.set (cell L pos) (x + buf.getD (cell L pos) 0 * d))
      (cell L pos + 1) (by simp [hlen]) hc (by omega)
    have hidx : ∀ k, (cell L pos + 1 + k) % L = (pos + (k + 1)) % L := by
      intro k
      rw [hcm, Nat.add_assoc, Nat.mod_add_mod, Nat.add_comm 1 k]
    have hunvisited : ∀ i, i < xs.length → (cell L pos + 1 + i) % L ≠ cell L pos :=
      fun i hi => shift_mod L _ i hc (by omega)
    constructor
    · intro i hi
      cases i with
      | zero =>
        simp only [run, Nat.add_zero, List.getD_cons_zero]
        rw [← hcm, ih2 (cell L pos) hunvisited, getD_set_self _ _ _ (by rw [hlen]; exact hc)]
      | succ k =>
        have hk : k < xs.length := by simpa using hi
        simp only [run, List.getD_cons_succ]
        rw [← hidx k]
        exact ih1 k hk
    · intro j hj
      simp only [run]
      have hj0 : cell L pos ≠ j := by
        have := hj 0 (by simp)
        rwa [Nat.add_zero, ← hcm] at this
      rw [ih2 j (fun i hi => by
        rw [hidx i]
        exact hj (i + 1) (by simpa using hi)), getD_set_other _ _ _ _ hj0]

/-- C17: for a state with a history array of `histLen ≥ 1` samples, `histPos ≤ histLen`
and a block of `N < histLen` samples, `ProcessBlock` visits the `N` distinct cells
`(histPos + i) mod histLen`, `i < N` (starting at the cursor, wrapping to `0` at
`histLen`); each of them ends holding the output sample of its step, and every
other cell of the buffer is unchanged. -/
theorem processBlock_frame [Zero α] [Add α] [Mul α] (e : EffectEcho α) (x : List α)
    (hwf : WellFormed e) (hN : x.length < e.histLen) :
    ∃ y e' buf buf', ProcessBlock e x = some (x.length, y, e') ∧
      e.history = some buf ∧ e'.history = some buf' ∧ buf'.length = buf.length ∧
      (∀ i, i < x.length →
        buf'.getD ((e.histPos + i) % e.histLen) 0 = y.getD i 0) ∧
      (∀ j, j < e.histLen → (∀ i, i < x.length → (e.histPos + i) % e.histLen ≠ j) →
        buf'.getD j 0 = buf.getD j 0) ∧
      (∀ i j, i < x.length → j < x.length →
        (e.histPos + i) % e.histLen = (e.histPos + j) % e.histLen → i = j) := by
  obtain ⟨⟨buf, hb, hlen⟩, hL, hp⟩ := hwf
  obtain ⟨h1, h2⟩ := run_frame e.histLen e.decay hL x buf e.histPos hlen hp (le_of_lt hN)
  exact ⟨_, _, buf, _, ProcessBlock_eq_run e buf x hb hlen hL hp, hb, rfl,
    run_length_buf _ _ _ _ _, h1, fun j _ hj => h2 j hj,
    fun i j hi hj h => mod_shift_injective _ _ i j (by omega) (by omega) h⟩

/-- Witness for C17: four cells, cursor `3`, a block of two samples that wraps. -/
theorem processBlock_frame_witness :
    ∃ y e' buf buf',
      ProcessBlock (⟨44100, 1, 2, some [5, 7, 9, 11], 3, 4⟩ : EffectEcho ℤ) [1, 2]
        = some (2, y, e') ∧
      (some [5, 7, 9, 11] : Option (List ℤ)) = some buf ∧ e'.history = some buf' ∧
      buf'.length = buf.length ∧
      (∀ i, i < 2 → buf'.getD ((3 + i) % 4) 0 = y.getD i 0) ∧
      (∀ j, j < 4 → (∀ i, i < 2 → (3 + i) % 4 ≠ j) → buf'.getD j 0 = buf.getD j 0) ∧
      (∀ i j, i < 2 → j < 2 → (3 + i) % 4 = (3 + j) % 4 → i = j) :=
  processBlock_frame (⟨44100, 1, 2, some [5, 7, 9, 11], 3, 4⟩ : EffectEcho ℤ) [1, 2]
    ⟨⟨[5, 7, 9, 11], rfl, rfl⟩, by decide, by decide⟩ (by decide)

/-! ## The code against the reference algorithm of the specification -/

theorem specStep_eq [Zero α] [Add α] [Mul α] (d : α) (buf : List α) (L c : Nat) (x : α)
    (hc : c < buf.length) :
    specStep d ⟨buf, L, c⟩ x
      = some (x + buf.getD c 0 * d, ⟨buf.set c (x + buf.getD c 0 * d), L, (c + 1) % L⟩) := by
  have hget : buf[c]? = some (buf.getD c 0) := by
    rw [List.getD_eq_getElem?_getD, List.getElem?_eq_getElem hc]; simp
  unfold specStep
  simp only [hget]

/-- The reference algorithm on one block computes what the loop of the code
computes; its cursor is the cell the code addresses next. -/
theorem specProcessBlock_eq_run [Zero α] [Add α] [Mul α] (L : Nat) (d : α) (hL : 1 ≤ L)
    (xs : List α) :
    ∀ (buf : List α) (pos : Nat), buf.length = L → pos ≤ L →
      specProcessBlock d ⟨buf, L, cell L pos⟩ xs
        = some ((run L d buf pos xs).1,
            ⟨(run L d buf pos xs).2.1, L, cell L (run L d buf pos xs).2.2⟩) := by
  induction xs with
  | nil => intro buf pos _ _; simp [specProcessBlock, run]
  | cons x xs ih =>
    intro buf pos hlen hp
    have hc : cell L pos < L := cell_lt hL hp
    have hnext : (cell L pos + 1) % L = cell L (cell L pos + 1) :=
      (cell_eq_mod hL hc).symm
    have hstep := ih (buf.set (cell L pos) (x + buf.getD (cell L pos) 0 * d)) (cell L pos + 1)
      (by simp [hlen]) hc
    rw [specProcessBlock, specStep_eq d buf L (cell L pos) x (by rw [hlen]; exact hc)]
    simp only
    rw [hnext, hstep]
    simp [run]

theorem cell_of_refines (L : Nat) (e : EffectEcho α) (s : DelayLineState α)
    (hL : 1 ≤ L) (h : Refines L e s) : s.writeCursor = cell L e.histPos := by
  obtain ⟨_, _, _, _, hp, hc, hmod⟩ := h
  rw [cell_eq_mod hL hp, hmod, Nat.mod_eq_of_lt hc]

/-- One block: code and reference return the same output and stay in
correspondence. -/
theorem refines_block [Zero α] [Add α] [Mul α] (L : Nat) (hL : 1 ≤ L) (e : EffectEcho α)
    (s : DelayLineState α) (x : List α) (h : Refines L e s) :
    ∃ y e' s', ProcessBlock e x = some (x.length, y, e') ∧
      specProcessBlock e.decay s x = some (y, s') ∧ Refines L e' s' ∧ e'.decay = e.decay := by
  have hcur := cell_of_refines L e s hL h
  obtain ⟨hlen, hsl, hb, hbl, hp, hc, hmod⟩ := h
  obtain ⟨buf, sl, c⟩ := s
  simp only at hsl hb hbl hc hmod hcur
  subst hsl
  subst hcur
  have hL' : 1 ≤ e.histLen := by rw [hlen]; exact hL
  have hp' : e.histPos ≤ e.histLen := by rw [hlen]; exact hp
  have hrun := ProcessBlock_eq_run e buf x hb (by rw [hbl, hlen]) hL' hp'
  have hspec := specProcessBlock_eq_run sl e.decay hL x buf e.histPos hbl hp
  rw [hlen] at hrun
  have hle := run_pos_le sl e.decay hL x buf e.histPos hp
  refine ⟨_, _, _, hrun, hspec, ⟨rfl, rfl, rfl, ?_, hle, cell_lt hL hle, ?_⟩, rfl⟩
  · simp only [run_length_buf, hbl]
  · simp only
    rw [cell_eq_mod hL hle, Nat.mod_mod]

/-- C15: the code of `ProcessBlock`, which resets the cursor lazily, and the
four-step reference algorithm of the specification, which advances it with
`(cursor + 1) mod length`, agree: from start states with the same buffer of
`histLen ≥ 1` samples and cursors congruent modulo `histLen` (code cursor at most
`histLen`, reference cursor below it), on every sequence of input blocks both
return the same output blocks, end with the same buffer contents, and their
cursors remain congruent modulo `histLen`. -/
theorem processBlocks_refines_spec [Zero α] [Add α] [Mul α] (L : Nat) (hL : 1 ≤ L)
    (bs : List (List α)) (e : EffectEcho α) (s : DelayLineState α) (h : Refines L e s) :
    ∃ ys e' s', ProcessBlocks e bs = some (ys, e') ∧
      specProcessBlocks e.decay s bs = some (ys, s') ∧
      e'.history = some s'.buffer ∧ e'.histPos % L = s'.writeCursor % L ∧
      Refines L e' s' := by
  induction bs generalizing e s with
  | nil => exact ⟨[], e, s, rfl, rfl, h.2.2.1, h.2.2.2.2.2.2, h⟩
  | cons b bs ih =>
    obtain ⟨y, e1, s1, h1, h2, href, hd⟩ := refines_block L hL e s b h
    obtain ⟨ys, e2, s2, h3, h4, hbuf, hcur, href2⟩ := ih e1 s1 href
    rw [hd] at h4
    refine ⟨y :: ys, e2, s2, ?_, ?_, hbuf, hcur, href2⟩
    · simp [ProcessBlocks, h1, h3]
    · simp [specProcessBlocks, h2, h4]

/-- Witness for C15: code cursor parked at `3 = histLen`, reference cursor `0`, two
blocks. -/
theorem processBlocks_refines_spec_witness :
    ∃ ys e' s',
      ProcessBlocks (⟨44100, 1, 2, some [5, 7, 9], 3, 3⟩ : EffectEcho ℤ) [[1, 2], [3, 4, 5]]
        = some (ys, e') ∧
      specProcessBlocks (2 : ℤ) ⟨[5, 7, 9], 3, 0⟩ [[1, 2], [3, 4, 5]] = some (ys, s') ∧
      e'.history = some s'.buffer ∧ e'.histPos % 3 = s'.writeCursor % 3 ∧
      Refines 3 e' s' :=
  processBlocks_refines_spec 3 (by decide) [[1, 2], [3, 4, 5]]
    (⟨44100, 1, 2, some [5, 7, 9], 3, 3⟩ : EffectEcho ℤ) ⟨[5, 7, 9], 3, 0⟩
    ⟨rfl, rfl, rfl, rfl, by decide, by decide, by decide⟩

/-! ## Boundedness of the echo -/

/-- C18: over an ordered field (exact arithmetic), for `L ≥ 1`, `0 ≤ decay < 1`,
`M ≥ 0` and an input whose samples all satisfy `|x[n]| ≤ M`, the output of
`ProcessBlock` from a fresh state satisfies `|y[n]| ≤ M / (1 - decay)` for every
`n`; hence, for the non-negative decays the effect admits, an output that is not
bounded in this way requires `decay ≥ 1`. -/
theorem processBlock_bounded [LinearOrderedField α] (e : EffectEcho α) (L : Nat)
    (x : List α) (M : α) (hL : 1 ≤ L) (hfresh : Fresh e L) (hd0 : 0 ≤ e.decay)
    (hd1 : e.decay < 1) (hM : 0 ≤ M) (hx : ∀ v ∈ x, |v| ≤ M) :
    ∃ y e', ProcessBlock e x = some (x.length, y, e') ∧ y.length = x.length ∧
      ∀ n, n < x.length → |y.getD n 0| ≤ M / (1 - e.decay) := by
  obtain ⟨y, e', hrun, hylen, hrec⟩ := fresh_recurrence e L x hL hfresh
  refine ⟨y, e', hrun, hylen, ?_⟩
  have hpos : 0 < 1 - e.decay := by linarith
  have hMle : M ≤ M / (1 - e.decay) := by
    rw [le_div_iff₀ hpos]
    nlinarith
  have hxn : ∀ n, n < x.length → |x.getD n 0| ≤ M := by
    intro n hn
    rw [List.getD_eq_getElem _ _ hn]
    exact hx _ (List.getElem_mem hn)
  intro n
  induction n using Nat.strong_induction_on with
  | _ n ih =>
    intro hn
    rw [hrec n hn]
    by_cases h : n < L
    · rw [if_pos h]
      exact le_trans (hxn n hn) hMle
    · rw [if_neg h]
      have hprev := ih (n - L) (by omega) (by omega)
      have hstep : |x.getD n 0 + e.decay * y.getD (n - L) 0|
          ≤ M + e.decay * (M / (1 - e.decay)) := by
        refine le_trans (abs_add _ _) (add_le_add (hxn n hn) ?_)
        rw [abs_mul, abs_of_nonneg hd0]
        exact mul_le_mul_of_nonneg_left hprev hd0
      have hsum : M + e.decay * (M / (1 - e.decay)) = M / (1 - e.decay) := by
        field_simp
        ring
      rw [hsum] at hstep
      exact hstep

/-- Witness for C18: two cells, decay `1/2`, samples bounded by `1`. -/
theorem processBlock_bounded_witness :
    ∃ y e', ProcessBlock (⟨44100, 1, 1 / 2, some [0, 0], 0, 2⟩ : EffectEcho ℚ)
        [1, -1, 1 / 2, 1] = some (4, y, e') ∧ y.length = 4 ∧
      ∀ n, n < 4 → |y.getD n 0| ≤ (1 : ℚ) / (1 - 1 / 2) :=
  processBlock_bounded (⟨44100, 1, 1 / 2, some [0, 0], 0, 2⟩ : EffectEcho ℚ) 2
    [1, -1, 1 / 2, 1] 1 (by decide) ⟨rfl, rfl, rfl⟩ (by norm_num) (by norm_num) (by norm_num)
    (by
      intro v hv
      simp only [List.mem_cons, List.mem_singleton, List.not_mem_nil, or_false] at hv
      rcases hv with rfl | rfl | rfl | rfl <;> norm_num [abs_le])

/-! ## The claims that depend on the arithmetic -/

/-- With `decay` such that no sample of the buffer or of the input disturbs a sum
(`v + h * decay = v`), the output block is the input block. -/
theorem zero_decay_of_law [Zero α] [Add α] [Mul α] (e : EffectEcho α) (x buf : List α)
    (hwf : WellFormed e) (hb : e.history = some buf)
    (hlaw : ∀ v ∈ x, ∀ h, (h ∈ buf ∨ h ∈ x) → v + h * e.decay = v) :
    ∃ e', ProcessBlock e x = some (x.length, x, e') := by
  obtain ⟨⟨buf', hb', hlen⟩, hL, hp⟩ := hwf
  have hbb : buf' = buf := Option.some.inj (hb'.symm.trans hb)
  subst hbb
  have hrun := ProcessBlock_eq_run e buf' x hb hlen hL hp
  have hval : ∀ n, n < x.length →
      (run e.histLen e.decay buf' e.histPos x).1.getD n 0 = x.getD n 0 := by
    intro n
    induction n using Nat.strong_induction_on with
    | _ n ih =>
      intro hn
      have hxn : x.getD n 0 ∈ x := by
        rw [List.getD_eq_getElem _ _ hn]; exact List.getElem_mem hn
      rw [run_getD e.histLen e.decay hL x buf' e.histPos hlen hp n hn]
      apply hlaw _ hxn
      by_cases h : n < e.histLen
      · rw [if_pos h]
        left
        have hidx : (e.histPos + n) % e.histLen < buf'.length := by
          rw [hlen]; exact Nat.mod_lt _ (by omega)
        rw [List.getD_eq_getElem _ _ hidx]
        exact List.getElem_mem hidx
      · rw [if_neg h, ih (n - e.histLen) (by omega) (by omega)]
        right
        have hidx : n - e.histLen < x.length := by omega
        rw [List.getD_eq_getElem _ _ hidx]
        exact List.getElem_mem hidx
  have hout : (run e.histLen e.decay buf' e.histPos x).1 = x := by
    apply list_ext_getD _ _ (run_length_out _ _ _ _ _)
    intro n hn
    rw [run_length_out] at hn
    exact hval n hn
  rw [hout] at hrun
  exact ⟨_, hrun⟩

/-- C5 as stated fails in the arithmetic of the program: on a fresh state of one
sample with `decay = 0`, the input `[+inf, 1]` gives the output `[+inf, NaN]`,
because the stored `+inf` times `0` is a NaN. -/
theorem processBlock_zero_decay_infinite_sample :
    ProcessBlock (⟨1000, 1 / 1000, 0, some [0], 0, 1⟩ : EffectEcho FloatVal)
        [FloatVal.inf false, 1]
      = some (2, [FloatVal.inf false, FloatVal.nan],
          ⟨1000, 1 / 1000, 0, some [FloatVal.nan], 1, 1⟩) ∧
    [FloatVal.inf false, FloatVal.nan] ≠ [FloatVal.inf false, 1] := by
  constructor
  · rw [ProcessBlock_eq_run _ [0] _ rfl rfl (by decide) (by decide)]
    simp [run, cell, inf_add_zero_mul_zero, add_inf_mul_zero]
  · simp [FloatVal.one_def]

/-- C5 (amended): for a state with a history array of `histLen ≥ 1` samples and
`histPos ≤ histLen`, if `decay = 0` then the output of `ProcessBlock` equals the
input elementwise in the arithmetic of the program whenever every sample of the
buffer and of the input is a finite `float`, and over exact arithmetic (any
semiring) whatever the buffer holds. -/
theorem processBlock_zero_decay :
    (∀ (e : EffectEcho FloatVal) (x buf : List FloatVal), WellFormed e →
      e.history = some buf → e.decay = 0 → (∀ v ∈ buf, IsFloat32 v) →
      (∀ v ∈ x, IsFloat32 v) → ∃ e', ProcessBlock e x = some (x.length, x, e')) ∧
    (∀ (β : Type) [Semiring β] (e : EffectEcho β) (x : List β), WellFormed e →
      e.decay = 0 → ∃ e', ProcessBlock e x = some (x.length, x, e')) := by
  constructor
  · intro e x buf hwf hb hd hbuf hx
    apply zero_decay_of_law e x buf hwf hb
    intro v hv h hh
    rw [hd]
    exact float32_add_mul_zero v h (hx v hv) (hh.elim (hbuf h) (hx h))
  · intro β _ e x hwf hd
    obtain ⟨⟨buf, hb, hlen⟩, hL, hp⟩ := hwf
    apply zero_decay_of_law e x buf ⟨⟨buf, hb, hlen⟩, hL, hp⟩ hb
    intro v _ h _
    rw [hd, mul_zero, add_zero]

/-- Witness for C5 (amended): finite `float` samples in the buffer and the input,
cursor in the middle, decay `0`. -/
theorem processBlock_zero_decay_witness :
    ∃ e', ProcessBlock
        (⟨44100, 1, 0, some [FloatVal.fin (5 / 2), FloatVal.fin (-7), FloatVal.fin 9], 1, 3⟩ :
          EffectEcho FloatVal)
        [FloatVal.fin 1, FloatVal.fin (1 / 4), FloatVal.fin (-3), FloatVal.fin 42]
      = some (4, [FloatVal.fin 1, FloatVal.fin (1 / 4), FloatVal.fin (-3), FloatVal.fin 42], e') :=
  processBlock_zero_decay.1
    ⟨44100, 1, 0, some [FloatVal.fin (5 / 2), FloatVal.fin (-7), FloatVal.fin 9], 1, 3⟩
    [FloatVal.fin 1, FloatVal.fin (1 / 4), FloatVal.fin (-3), FloatVal.fin 42]
    [FloatVal.fin (5 / 2), FloatVal.fin (-7), FloatVal.fin 9]
    ⟨⟨_, rfl, rfl⟩, by decide, by decide⟩ rfl rfl
    (by
      intro v hv
      simp only [List.mem_cons, List.mem_singleton, List.not_mem_nil, or_false] at hv
      rcases hv with rfl | rfl | rfl
      · exact isFloat32_of_repr _ 5 (-1) (by norm_num) (by decide) (by decide)
          (abs_lt.mpr ⟨by norm_num, by norm_num⟩)
      · exact isFloat32_of_repr _ (-7) 0 (by norm_num) (by decide) (by decide)
          (abs_lt.mpr ⟨by norm_num, by norm_num⟩)
      · exact isFloat32_of_repr _ 9 0 (by norm_num) (by decide) (by decide)
          (abs_lt.mpr ⟨by norm_num, by norm_num⟩))
    (by
      intro v hv
      simp only [List.mem_cons, List.mem_singleton, List.not_mem_nil, or_false] at hv
      rcases hv with rfl | rfl | rfl | rfl
      · exact isFloat32_of_repr _ 1 0 (by norm_num) (by decide) (by decide)
          (abs_lt.mpr ⟨by norm_num, by norm_num⟩)
      · exact isFloat32_of_repr _ 1 (-2) (by norm_num) (by decide) (by decide)
          (abs_lt.mpr ⟨by norm_num, by norm_num⟩)
      · exact isFloat32_of_repr _ (-3) 0 (by norm_num) (by decide) (by decide)
          (abs_lt.mpr ⟨by norm_num, by norm_num⟩)
      · exact isFloat32_of_repr _ 42 0 (by norm_num) (by decide) (by decide)
          (abs_lt.mpr ⟨by norm_num, by norm_num⟩))

/-! ### The unit impulse and superposition in the arithmetic of the program -/

/-- Line 141 on the sample `1` with an empty history cell, `decay` the `double` nearest to `0.1`. -/
theorem mix_one_zero :
    FloatVal.fin 1 + FloatVal.fin 0 * FloatVal.fin (3602879701896397 / 36028797018963968)
      = FloatVal.fin 1 :=
  mix_eval _ _ _ 0 1 _
    (roundDouble_eq_of_repr _ _ (0) (0) (by norm_num) (by norm_num) (by norm_num)
      (by norm_num))
    (roundDouble_eq_of_repr _ _ (1) (0) (by norm_num) (by norm_num) (by norm_num)
      (by norm_num))
    (roundFloat_eq_of_repr _ _ (1) (0) (by norm_num) (by norm_num) (by norm_num) (by norm_num))
    (abs_lt.mpr ⟨by norm_num, by norm_num⟩)
    (abs_lt.mpr ⟨by norm_num, by norm_num⟩)
    (abs_lt.mpr ⟨by norm_num, by norm_num⟩)

/-- Line 141 on the sample `0` with an empty history cell, `decay` the `double` nearest to `0.1`. -/
theorem mix_zero_zero :
    FloatVal.fin 0 + FloatVal.fin 0 * FloatVal.fin (3602879701896397 / 36028797018963968)
      = FloatVal.fin 0 :=
  mix_eval _ _ _ 0 0 _
    (roundDouble_eq_of_repr _ _ (0) (0) (by norm_num) (by norm_num) (by norm_num)
      (by norm_num))
    (roundDouble_eq_of_repr _ _ (0) (0) (by norm_num) (by norm_num) (by norm_num)
      (by norm_num))
    (roundFloat_eq_of_repr _ _ (0) (0) (by norm_num) (by norm_num) (by norm_num) (by norm_num))
    (abs_lt.mpr ⟨by norm_num, by norm_num⟩)
    (abs_lt.mpr ⟨by norm_num, by norm_num⟩)
    (abs_lt.mpr ⟨by norm_num, by norm_num⟩)

/-- First echo of the unit impulse with `decay` the `double` nearest to `0.1`: the `float` nearest to `0.1`. -/
theorem mix_echo_first :
    FloatVal.fin 0 + FloatVal.fin 1 * FloatVal.fin (3602879701896397 / 36028797018963968)
      = FloatVal.fin (13421773 / 134217728) :=
  mix_eval _ _ _ (3602879701896397 / 36028797018963968) (3602879701896397 / 36028797018963968)
    _
    (roundDouble_eq_of_repr _ _ (3602879701896397) (-55) (by norm_num) (by norm_num)
      (by norm_num) (by norm_num))
    (roundDouble_eq_of_repr _ _ (3602879701896397) (-55) (by norm_num) (by norm_num)
      (by norm_num) (by norm_num))
    (roundFloat_eq_of_near _ _ (-4) (13421773) (-27) (by norm_num) (by norm_num) (by norm_num)
      (by norm_num) (by norm_num) (by norm_num) (by norm_num) (by norm_num))
    (abs_lt.mpr ⟨by norm_num, by norm_num⟩)
    (abs_lt.mpr ⟨by norm_num, by norm_num⟩)
    (abs_lt.mpr ⟨by norm_num, by norm_num⟩)

/-- Second echo of the unit impulse with `decay` the `double` nearest to `0.1`. -/
theorem mix_echo_second :
    FloatVal.fin 0 + FloatVal.fin (13421773 / 134217728) * FloatVal.fin (3602879701896397 /
      36028797018963968)
      = FloatVal.fin (5368709 / 536870912) :=
  mix_eval _ _ _ (5764607608933581 / 576460752303423488) (5764607608933581 /
    576460752303423488) _
    (roundDouble_eq_of_near _ _ (-7) (5764607608933581) (-59) (by norm_num) (by norm_num)
      (by norm_num) (by norm_num) (by norm_num) (by norm_num) (by norm_num) (by norm_num))
    (roundDouble_eq_of_repr _ _ (5764607608933581) (-59) (by norm_num) (by norm_num)
      (by norm_num) (by norm_num))
    (roundFloat_eq_of_near _ _ (-7) (10737418) (-30) (by norm_num) (by norm_num) (by norm_num)
      (by norm_num) (by norm_num) (by norm_num) (by norm_num) (by norm_num))
    (abs_lt.mpr ⟨by norm_num, by norm_num⟩)
    (abs_lt.mpr ⟨by norm_num, by norm_num⟩)
    (abs_lt.mpr ⟨by norm_num, by norm_num⟩)

/-- Third echo of the unit impulse with `decay` the `double` nearest to `0.1`. -/
theorem mix_echo_third :
    FloatVal.fin 0 + FloatVal.fin (5368709 / 536870912) * FloatVal.fin (3602879701896397 /
      36028797018963968)
      = FloatVal.fin (4294967 / 4294967296) :=
  mix_eval _ _ _ (4611685915348173 / 4611686018427387904) (4611685915348173 /
    4611686018427387904) _
    (roundDouble_eq_of_near _ _ (-10) (4611685915348173) (-62) (by norm_num) (by norm_num)
      (by norm_num) (by norm_num) (by norm_num) (by norm_num) (by norm_num) (by norm_num))
    (roundDouble_eq_of_repr _ _ (4611685915348173) (-62) (by norm_num) (by norm_num)
      (by norm_num) (by norm_num))
    (roundFloat_eq_of_near _ _ (-10) (8589934) (-33) (by norm_num) (by norm_num) (by norm_num)
      (by norm_num) (by norm_num) (by norm_num) (by norm_num) (by norm_num))
    (abs_lt.mpr ⟨by norm_num, by norm_num⟩)
    (abs_lt.mpr ⟨by norm_num, by norm_num⟩)
    (abs_lt.mpr ⟨by norm_num, by norm_num⟩)

/-- The sample `1 + 0.5 * 1` of the combined input. -/
theorem mix_sum_one :
    FloatVal.fin 1 + FloatVal.fin (1 / 2) * FloatVal.fin 1
      = FloatVal.fin (3 / 2) :=
  mix_eval _ _ _ (1 / 2) (3 / 2) _
    (roundDouble_eq_of_repr _ _ (1) (-1) (by norm_num) (by norm_num) (by norm_num)
      (by norm_num))
    (roundDouble_eq_of_repr _ _ (3) (-1) (by norm_num) (by norm_num) (by norm_num)
      (by norm_num))
    (roundFloat_eq_of_repr _ _ (3) (-1) (by norm_num) (by norm_num) (by norm_num)
      (by norm_num))
    (abs_lt.mpr ⟨by norm_num, by norm_num⟩)
    (abs_lt.mpr ⟨by norm_num, by norm_num⟩)
    (abs_lt.mpr ⟨by norm_num, by norm_num⟩)

/-- The sample `0 + 0.5 * 0` of the combined input. -/
theorem mix_sum_zero :
    FloatVal.fin 0 + FloatVal.fin (1 / 2) * FloatVal.fin 0
      = FloatVal.fin 0 :=
  mix_eval _ _ _ 0 0 _
    (roundDouble_eq_of_repr _ _ (0) (0) (by norm_num) (by norm_num) (by norm_num)
      (by norm_num))
    (roundDouble_eq_of_repr _ _ (0) (0) (by norm_num) (by norm_num) (by norm_num)
      (by norm_num))
    (roundFloat_eq_of_repr _ _ (0) (0) (by norm_num) (by norm_num) (by norm_num) (by norm_num))
    (abs_lt.mpr ⟨by norm_num, by norm_num⟩)
    (abs_lt.mpr ⟨by norm_num, by norm_num⟩)
    (abs_lt.mpr ⟨by norm_num, by norm_num⟩)

/-- Line 141 on the sample `1.5` with an empty history cell. -/
theorem mix_three_halves_zero :
    FloatVal.fin (3 / 2) + FloatVal.fin 0 * FloatVal.fin (3602879701896397 / 36028797018963968)
      = FloatVal.fin (3 / 2) :=
  mix_eval _ _ _ 0 (3 / 2) _
    (roundDouble_eq_of_repr _ _ (0) (0) (by norm_num) (by norm_num) (by norm_num)
      (by norm_num))
    (roundDouble_eq_of_repr _ _ (3) (-1) (by norm_num) (by norm_num) (by norm_num)
      (by norm_num))
    (roundFloat_eq_of_repr _ _ (3) (-1) (by norm_num) (by norm_num) (by norm_num)
      (by norm_num))
    (abs_lt.mpr ⟨by norm_num, by norm_num⟩)
    (abs_lt.mpr ⟨by norm_num, by norm_num⟩)
    (abs_lt.mpr ⟨by norm_num, by norm_num⟩)

/-- First echo of the combined input. -/
theorem mix_combined_first :
    FloatVal.fin 0 + FloatVal.fin (3 / 2) * FloatVal.fin (3602879701896397 / 36028797018963968)
      = FloatVal.fin (5033165 / 33554432) :=
  mix_eval _ _ _ (1351079888211149 / 9007199254740992) (1351079888211149 / 9007199254740992) _
    (roundDouble_eq_of_tie _ _ (-3) (5404319552844595) (5404319552844596) (-55) (by norm_num)
      (by norm_num) (by norm_num) (by norm_num) (by norm_num) (by norm_num) (by decide)
      (Or.inr (by norm_num)) (by norm_num))
    (roundDouble_eq_of_repr _ _ (1351079888211149) (-53) (by norm_num) (by norm_num)
      (by norm_num) (by norm_num))
    (roundFloat_eq_of_near _ _ (-3) (10066330) (-26) (by norm_num) (by norm_num) (by norm_num)
      (by norm_num) (by norm_num) (by norm_num) (by norm_num) (by norm_num))
    (abs_lt.mpr ⟨by norm_num, by norm_num⟩)
    (abs_lt.mpr ⟨by norm_num, by norm_num⟩)
    (abs_lt.mpr ⟨by norm_num, by norm_num⟩)

/-- Second echo of the combined input. -/
theorem mix_combined_second :
    FloatVal.fin 0 + FloatVal.fin (5033165 / 33554432) * FloatVal.fin (3602879701896397 /
      36028797018963968)
      = FloatVal.fin (1006633 / 67108864) :=
  mix_eval _ _ _ (1006633 / 67108864) (1006633 / 67108864) _
    (roundDouble_eq_of_near _ _ (-7) (8646911628148736) (-59) (by norm_num) (by norm_num)
      (by norm_num) (by norm_num) (by norm_num) (by norm_num) (by norm_num) (by norm_num))
    (roundDouble_eq_of_repr _ _ (1006633) (-26) (by norm_num) (by norm_num) (by norm_num)
      (by norm_num))
    (roundFloat_eq_of_repr _ _ (1006633) (-26) (by norm_num) (by norm_num) (by norm_num)
      (by norm_num))
    (abs_lt.mpr ⟨by norm_num, by norm_num⟩)
    (abs_lt.mpr ⟨by norm_num, by norm_num⟩)
    (abs_lt.mpr ⟨by norm_num, by norm_num⟩)

/-- The first echo of `A` plus `0.5` times the first echo of `B`. -/
theorem mix_sum_first :
    FloatVal.fin (13421773 / 134217728) + FloatVal.fin (1 / 2) * FloatVal.fin (13421773 /
      134217728)
      = FloatVal.fin (5033165 / 33554432) :=
  mix_eval _ _ _ (13421773 / 268435456) (40265319 / 268435456) _
    (roundDouble_eq_of_repr _ _ (13421773) (-28) (by norm_num) (by norm_num) (by norm_num)
      (by norm_num))
    (roundDouble_eq_of_repr _ _ (40265319) (-28) (by norm_num) (by norm_num) (by norm_num)
      (by norm_num))
    (roundFloat_eq_of_near _ _ (-3) (10066330) (-26) (by norm_num) (by norm_num) (by norm_num)
      (by norm_num) (by norm_num) (by norm_num) (by norm_num) (by norm_num))
    (abs_lt.mpr ⟨by norm_num, by norm_num⟩)
    (abs_lt.mpr ⟨by norm_num, by norm_num⟩)
    (abs_lt.mpr ⟨by norm_num, by norm_num⟩)

/-- The second echo of `A` plus `0.5` times the second echo of `B`. -/
theorem mix_sum_second :
    FloatVal.fin (5368709 / 536870912) + FloatVal.fin (1 / 2) * FloatVal.fin (5368709 /
      536870912)
      = FloatVal.fin (16106127 / 1073741824) :=
  mix_eval _ _ _ (5368709 / 1073741824) (16106127 / 1073741824) _
    (roundDouble_eq_of_repr _ _ (5368709) (-30) (by norm_num) (by norm_num) (by norm_num)
      (by norm_num))
    (roundDouble_eq_of_repr _ _ (16106127) (-30) (by norm_num) (by norm_num) (by norm_num)
      (by norm_num))
    (roundFloat_eq_of_repr _ _ (16106127) (-30) (by norm_num) (by norm_num) (by norm_num)
      (by norm_num))
    (abs_lt.mpr ⟨by norm_num, by norm_num⟩)
    (abs_lt.mpr ⟨by norm_num, by norm_num⟩)
    (abs_lt.mpr ⟨by norm_num, by norm_num⟩)

/-- The impulse response on a fresh state in any arithmetic in which a sample `1` or
`0` passes an empty history cell unchanged: zero away from the multiples of `L`, and
at `k * L` the sample `1` passed `k` times through the echo of a silent input. -/
theorem fresh_impulse_iterate [Zero α] [One α] [Add α] [Mul α] (e : EffectEcho α)
    (L N : Nat) (hL : 1 ≤ L) (hfresh : Fresh e L)
    (h1 : (1 : α) + 0 * e.decay = 1) (h0 : (0 : α) + 0 * e.decay = 0) :
    ∃ y e', ProcessBlock e (impulse N) = some (N, y, e') ∧ y.length = N ∧
      ∀ n, n < N →
        y.getD n 0 = if L ∣ n then (fun h => 0 + h * e.decay)^[n / L] 1 else 0 := by
  obtain ⟨hb, hp, hlen⟩ := hfresh
  have hL' : 1 ≤ e.histLen := by rw [hlen]; exact hL
  have hbl : (List.replicate L (0 : α)).length = e.histLen := by simp [hlen]
  have hp' : e.histPos ≤ e.histLen := by rw [hp]; exact Nat.zero_le _
  have hrun := ProcessBlock_eq_run e _ (impulse N) hb hbl hL' hp'
  rw [impulse_length] at hrun
  refine ⟨_, _, hrun, by rw [run_length_out, impulse_length], ?_⟩
  have hz : ∀ i, (List.replicate L (0 : α)).getD i 0 = 0 := by
    intro i
    rw [List.getD_eq_getElem?_getD, List.getElem?_replicate]
    split_ifs <;> rfl
  intro n
  induction n using Nat.strong_induction_on with
  | _ n ih =>
    intro hn
    rw [run_getD e.histLen e.decay hL' (impulse N) _ _ hbl hp' n
      (by rw [impulse_length]; exact hn), impulse_getD N n hn, hlen]
    by_cases h : n < L
    · rw [if_pos h, hz]
      by_cases hn0 : n = 0
      · subst hn0
        simp [h1]
      · have hnd : ¬ L ∣ n := fun hd => by
          have := Nat.le_of_dvd (by omega) hd
          omega
        rw [if_neg hn0, if_neg hnd, h0]
    · have hge : L ≤ n := by omega
      have hn0 : n ≠ 0 := by omega
      rw [if_neg h, if_neg hn0]
      have hprev := ih (n - L) (by omega) (by omega)
      rw [hlen] at hprev
      rw [hprev]
      have hdiv : L ∣ n - L ↔ L ∣ n := by
        constructor
        · intro hd
          have := Nat.dvd_add hd (Nat.dvd_refl L)
          rwa [Nat.sub_add_cancel hge] at this
        · intro hd
          exact Nat.dvd_sub' hd (Nat.dvd_refl L)
      have hq : n / L = (n - L) / L + 1 := by
        conv_lhs => rw [← Nat.sub_add_cancel hge]
        exact Nat.add_div_right _ (by omega)
      by_cases hd : L ∣ n
      · rw [if_pos hd, if_pos (hdiv.mpr hd), hq, Function.iterate_succ_apply']
      · rw [if_neg hd, if_neg (fun h' => hd (hdiv.mp h')), h0]

theorem isFloat32_zero : IsFloat32 0 :=
  isFloat32_of_repr 0 0 0 (by norm_num) (by decide) (by decide)
    (abs_lt.mpr ⟨by norm_num, by norm_num⟩)

theorem isFloat32_one : IsFloat32 1 :=
  isFloat32_of_repr 1 1 0 (by norm_num) (by decide) (by decide)
    (abs_lt.mpr ⟨by norm_num, by norm_num⟩)

/-- The impulse response in the arithmetic of the program, for a finite decay. -/
theorem fresh_impulse_float (d : ℚ) (e : EffectEcho FloatVal) (L N : Nat) (hL : 1 ≤ L)
    (hfresh : Fresh e L) (hd : e.decay = FloatVal.fin d) :
    ∃ y e', ProcessBlock e (impulse N) = some (N, y, e') ∧ y.length = N ∧
      ∀ n, n < N →
        y.getD n 0 = if L ∣ n then (fun h => 0 + h * FloatVal.fin d)^[n / L] 1 else 0 := by
  have h := fresh_impulse_iterate e L N hL hfresh
    (by rw [hd]; exact float32_add_zero_mul 1 isFloat32_one d)
    (by rw [hd]; exact float32_add_zero_mul 0 isFloat32_zero d)
  rw [hd] at h
  exact h

/-- C3 as stated fails in the arithmetic of the program: with `L = 2`, `N = 7` and
`decay` the `double` nearest to `0.1`, the samples at `2`, `4` and `6` are the
`float` values `0.100000001…`, `0.00999999977…` and `0.000999999931…`, none of
which is the corresponding power of `decay`; the last is not even the `float`
nearest to `decay ^ 3`. -/
theorem processBlock_impulse_not_power :
    ProcessBlock (⟨2000, 1 / 1000, FloatVal.fin (3602879701896397 / 36028797018963968), some [0, 0], 0, 2⟩ : EffectEcho FloatVal)
        (impulse 7)
      = some (7, [1, 0, FloatVal.fin (13421773 / 134217728), 0, FloatVal.fin (5368709 / 536870912), 0, FloatVal.fin (4294967 / 4294967296)],
          ⟨2000, 1 / 1000, FloatVal.fin (3602879701896397 / 36028797018963968), some [FloatVal.fin (4294967 / 4294967296), 0], 1, 2⟩) ∧
    ((13421773 / 134217728) : ℚ) ≠ (3602879701896397 / 36028797018963968) ^ 1 ∧ ((5368709 / 536870912) : ℚ) ≠ (3602879701896397 / 36028797018963968) ^ 2 ∧ ((4294967 / 4294967296) : ℚ) ≠ (3602879701896397 / 36028797018963968) ^ 3 ∧
    roundFloat ((3602879701896397 / 36028797018963968) ^ 3) ≠ (4294967 / 4294967296) := by
  refine ⟨?_, by norm_num, by norm_num, by norm_num, ?_⟩
  · have himp : (impulse 7 : List FloatVal) = [1, 0, 0, 0, 0, 0, 0] := by
      simp [impulse, List.range_succ]
    rw [himp, ProcessBlock_eq_run _ [0, 0] _ rfl rfl (by decide) (by decide)]
    simp [run, cell, FloatVal.zero_def, FloatVal.one_def, mix_one_zero, mix_zero_zero,
      mix_echo_first, mix_echo_second, mix_echo_third]
  · rw [roundFloat_eq_of_near _ (8589935 / 8589934592) (-10) (8589935) (-33) (by norm_num) (by norm_num) (by norm_num) (by norm_num) (by norm_num) (by norm_num) (by norm_num) (by norm_num)]
    norm_num

/-- First echo of the unit impulse with `decay = 0.5`: exactly `0.5`. -/
theorem mix_half_first :
    FloatVal.fin 0 + FloatVal.fin 1 * FloatVal.fin (1 / 2)
      = FloatVal.fin (1 / 2) :=
  mix_eval _ _ _ (1 / 2) (1 / 2) _
    (roundDouble_eq_of_repr _ _ (1) (-1) (by norm_num) (by norm_num) (by norm_num)
      (by norm_num))
    (roundDouble_eq_of_repr _ _ (1) (-1) (by norm_num) (by norm_num) (by norm_num)
      (by norm_num))
    (roundFloat_eq_of_repr _ _ (1) (-1) (by norm_num) (by norm_num) (by norm_num)
      (by norm_num))
    (abs_lt.mpr ⟨by norm_num, by norm_num⟩)
    (abs_lt.mpr ⟨by norm_num, by norm_num⟩)
    (abs_lt.mpr ⟨by norm_num, by norm_num⟩)

/-- Second echo of the unit impulse with `decay = 0.5`: exactly `0.25`. -/
theorem mix_half_second :
    FloatVal.fin 0 + FloatVal.fin (1 / 2) * FloatVal.fin (1 / 2)
      = FloatVal.fin (1 / 4) :=
  mix_eval _ _ _ (1 / 4) (1 / 4) _
    (roundDouble_eq_of_repr _ _ (1) (-2) (by norm_num) (by norm_num) (by norm_num)
      (by norm_num))
    (roundDouble_eq_of_repr _ _ (1) (-2) (by norm_num) (by norm_num) (by norm_num)
      (by norm_num))
    (roundFloat_eq_of_repr _ _ (1) (-2) (by norm_num) (by norm_num) (by norm_num)
      (by norm_num))
    (abs_lt.mpr ⟨by norm_num, by norm_num⟩)
    (abs_lt.mpr ⟨by norm_num, by norm_num⟩)
    (abs_lt.mpr ⟨by norm_num, by norm_num⟩)

/-- C3 (amended): on a fresh state of `L ≥ 1` zeros the unit impulse of length `N`
yields `0` at every index that is not a multiple of `L`; at index `k * L` it yields,
in the arithmetic of the program and for every finite decay, the sample `1` passed
`k` times through the echo of a silent input (`h ↦ 0 + h * decay`, each pass rounded
to `float`), and over exact arithmetic (any commutative semiring) `decay ^ k`; in
the arithmetic of the program with `L = 44100`, `decay = 0.5`, `N = 100000` the
output is exactly `1` at `0`, `0.5` at `44100`, `0.25` at `88200` and `0`
elsewhere. -/
theorem processBlock_impulse :
    (∀ (d : ℚ) (e : EffectEcho FloatVal) (L N : Nat), 1 ≤ L → Fresh e L →
      e.decay = FloatVal.fin d →
      ∃ y e', ProcessBlock e (impulse N) = some (N, y, e') ∧ y.length = N ∧
        (∀ k, k * L < N →
          y.getD (k * L) 0 = (fun h => 0 + h * FloatVal.fin d)^[k] 1) ∧
        (∀ n, n < N → ¬ L ∣ n → y.getD n 0 = 0)) ∧
    (∀ (β : Type) [CommSemiring β] (e : EffectEcho β) (L N : Nat), 1 ≤ L → Fresh e L →
      ∃ y e', ProcessBlock e (impulse N) = some (N, y, e') ∧ y.length = N ∧
        (∀ k, k * L < N → y.getD (k * L) 0 = e.decay ^ k) ∧
        (∀ n, n < N → ¬ L ∣ n → y.getD n 0 = 0)) ∧
    (∃ y e', ProcessBlock
          (⟨44100, 1, FloatVal.fin (1 / 2), some (List.replicate 44100 0), 0, 44100⟩ :
            EffectEcho FloatVal)
          (impulse 100000) = some (100000, y, e') ∧ y.length = 100000 ∧
        y.getD 0 0 = 1 ∧ y.getD 44100 0 = FloatVal.fin (1 / 2) ∧
        y.getD 88200 0 = FloatVal.fin (1 / 4) ∧
        ∀ n, n < 100000 → n ≠ 0 → n ≠ 44100 → n ≠ 88200 → y.getD n 0 = 0) := by
  refine ⟨?_, ?_, ?_⟩
  · intro d e L N hL hfresh hd
    obtain ⟨y, e', hrun, hylen, hval⟩ := fresh_impulse_float d e L N hL hfresh hd
    refine ⟨y, e', hrun, hylen, ?_, ?_⟩
    · intro k hk
      rw [hval _ hk, if_pos (Nat.dvd_mul_left L k), Nat.mul_div_cancel k (by omega)]
    · intro n hn hnd
      rw [hval n hn, if_neg hnd]
  · intro β _ e L N hL hfresh
    obtain ⟨y, e', hrun, hylen, hval⟩ := fresh_impulse e L N hL hfresh
    refine ⟨y, e', hrun, hylen, ?_, ?_⟩
    · intro k hk
      rw [hval _ hk, if_pos (Nat.dvd_mul_left L k), Nat.mul_div_cancel k (by omega)]
    · intro n hn hnd
      rw [hval n hn, if_neg hnd]
  · obtain ⟨y, e', hrun, hylen, hval⟩ := fresh_impulse_float (1 / 2)
      (⟨44100, 1, FloatVal.fin (1 / 2), some (List.replicate 44100 0), 0, 44100⟩ :
        EffectEcho FloatVal) 44100 100000 (by norm_num) ⟨rfl, rfl, rfl⟩ rfl
    refine ⟨y, e', hrun, hylen, ?_, ?_, ?_, ?_⟩
    · rw [hval 0 (by norm_num)]
      simp
    · rw [hval 44100 (by norm_num), if_pos (Nat.dvd_refl _), Nat.div_self (by norm_num)]
      simp only [Function.iterate_succ, Function.iterate_zero, Function.comp_apply, id_eq]
      rw [FloatVal.zero_def, FloatVal.one_def]
      exact mix_half_first
    · have h2 : 88200 / 44100 = 2 := by norm_num
      rw [hval 88200 (by norm_num), if_pos ⟨2, by norm_num⟩, h2]
      simp only [Function.iterate_succ, Function.iterate_zero, Function.comp_apply, id_eq]
      rw [FloatVal.zero_def, FloatVal.one_def, mix_half_first]
      exact mix_half_second
    · intro n hn h0 h1 h2
      rw [hval n hn, if_neg]
      intro hd
      omega

/-- Witness for C3 (amended): history of two zeros, decay `3`, impulse of length
five, over the integers. -/
theorem processBlock_impulse_witness :
    ∃ y e', ProcessBlock (⟨8000, 1, 3, some [0, 0], 0, 2⟩ : EffectEcho ℤ) (impulse 5)
        = some (5, y, e') ∧ y.length = 5 ∧
      (∀ k, k * 2 < 5 → y.getD (k * 2) 0 = 3 ^ k) ∧
      (∀ n, n < 5 → ¬ 2 ∣ n → y.getD n 0 = 0) :=
  processBlock_impulse.2.1 ℤ (⟨8000, 1, 3, some [0, 0], 0, 2⟩ : EffectEcho ℤ) 2 5
    (by decide) ⟨rfl, rfl, rfl⟩

/-- C4 as stated fails in the arithmetic of the program: with `L = 1`, `decay` the
`double` nearest to `0.1`, `A = B = [1, 0, 0]` and `c = 0.5`, the output on
`A + c * B` ends with the `float` `0.0150000006…`, while the output on `A` plus `c`
times the output on `B` ends with `0.0149999997…`. -/
theorem processBlock_linear_fails_in_float :
    ProcessBlock (⟨1000, 1 / 1000, FloatVal.fin (3602879701896397 / 36028797018963968), some [0], 0, 1⟩ : EffectEcho FloatVal)
        [1, 0, 0]
      = some (3, [1, FloatVal.fin (13421773 / 134217728), FloatVal.fin (5368709 / 536870912)],
          ⟨1000, 1 / 1000, FloatVal.fin (3602879701896397 / 36028797018963968), some [FloatVal.fin (5368709 / 536870912)], 1, 1⟩) ∧
    ProcessBlock (⟨1000, 1 / 1000, FloatVal.fin (3602879701896397 / 36028797018963968), some [0], 0, 1⟩ : EffectEcho FloatVal)
        (List.zipWith (fun a b => a + FloatVal.fin (1 / 2) * b) [1, 0, 0] [1, 0, 0])
      = some (3, [FloatVal.fin (3 / 2), FloatVal.fin (5033165 / 33554432), FloatVal.fin (1006633 / 67108864)],
          ⟨1000, 1 / 1000, FloatVal.fin (3602879701896397 / 36028797018963968), some [FloatVal.fin (1006633 / 67108864)], 1, 1⟩) ∧
    List.zipWith (fun a b => a + FloatVal.fin (1 / 2) * b)
        [1, FloatVal.fin (13421773 / 134217728), FloatVal.fin (5368709 / 536870912)] [1, FloatVal.fin (13421773 / 134217728), FloatVal.fin (5368709 / 536870912)]
      = [FloatVal.fin (3 / 2), FloatVal.fin (5033165 / 33554432), FloatVal.fin (16106127 / 1073741824)] ∧
    [FloatVal.fin (3 / 2), FloatVal.fin (5033165 / 33554432), FloatVal.fin (1006633 / 67108864)]
      ≠ [FloatVal.fin (3 / 2), FloatVal.fin (5033165 / 33554432), FloatVal.fin (16106127 / 1073741824)] := by
  refine ⟨?_, ?_, ?_, ?_⟩
  · rw [ProcessBlock_eq_run _ [0] _ rfl rfl (by decide) (by decide)]
    simp [run, cell, FloatVal.zero_def, FloatVal.one_def, mix_one_zero, mix_echo_first,
      mix_echo_second]
  · have hZ : List.zipWith (fun a b => a + FloatVal.fin (1 / 2) * b)
        ([1, 0, 0] : List FloatVal) [1, 0, 0] = [FloatVal.fin (3 / 2), 0, 0] := by
      simp only [List.zipWith_cons_cons, List.zipWith_nil_right, FloatVal.zero_def,
        FloatVal.one_def, mix_sum_one, mix_sum_zero]
    rw [hZ, ProcessBlock_eq_run _ [0] _ rfl rfl (by decide) (by decide)]
    simp [run, cell, FloatVal.zero_def, mix_three_halves_zero, mix_zero_zero,
      mix_combined_first, mix_combined_second]
  · simp only [List.zipWith_cons_cons, List.zipWith_nil_right, FloatVal.one_def,
      mix_sum_one, mix_sum_first, mix_sum_second]
  · simp
    norm_num

theorem mem_zipWith_exists {β γ δ : Type} (f : β → γ → δ) :
    ∀ (l₁ : List β) (l₂ : List γ) (v : δ), v ∈ List.zipWith f l₁ l₂ → ∃ a b, v = f a b
  | [], _, v, h => by simp at h
  | _ :: _, [], v, h => by simp at h
  | a :: l₁, b :: l₂, v, h => by
    simp only [List.zipWith_cons_cons, List.mem_cons] at h
    rcases h with rfl | h
    · exact ⟨a, b, rfl⟩
    · exact mem_zipWith_exists f l₁ l₂ v h

/-- Before the first echo returns, a sample that passes an empty history cell
unchanged is output as it is. -/
theorem fresh_head [Zero α] [Add α] [Mul α] (e : EffectEcho α) (L : Nat) (x : List α)
    (hL : 1 ≤ L) (hfresh : Fresh e L) (hlaw : ∀ v ∈ x, v + 0 * e.decay = v) :
    ∃ y e', ProcessBlock e x = some (x.length, y, e') ∧ y.length = x.length ∧
      ∀ n, n < L → n < x.length → y.getD n 0 = x.getD n 0 := by
  obtain ⟨hb, hp, hlen⟩ := hfresh
  have hL' : 1 ≤ e.histLen := by rw [hlen]; exact hL
  have hbl : (List.replicate L (0 : α)).length = e.histLen := by simp [hlen]
  have hp' : e.histPos ≤ e.histLen := by rw [hp]; exact Nat.zero_le _
  refine ⟨_, _, ProcessBlock_eq_run e _ x hb hbl hL' hp', run_length_out _ _ _ _ _, ?_⟩
  intro n hnL hn
  have hz : (List.replicate L (0 : α)).getD ((e.histPos + n) % e.histLen) 0 = 0 := by
    rw [List.getD_eq_getElem?_getD, List.getElem?_replicate]
    split_ifs <;> rfl
  rw [run_getD e.histLen e.decay hL' x _ _ hbl hp' n hn, if_pos (by rw [hlen]; exact hnL), hz]
  apply hlaw
  rw [List.getD_eq_getElem _ _ hn]
  exact List.getElem_mem hn

/-- C4 (amended): for `L ≥ 1`, any scalar `c` and inputs `A`, `B` of equal length, each
run started from the same fresh state of length `L`, the output of `ProcessBlock` on
the elementwise sequence `A + c * B` equals, elementwise, the output on `A` plus `c`
times the output on `B`: over exact arithmetic (a commutative semiring such as the
rationals or the reals) at every sample, and in the arithmetic of the program, for
`float` inputs and a finite decay, at the samples `n < L` that precede the first
echo. -/
theorem processBlock_linear :
    (∀ (d : ℚ) (c : FloatVal) (e : EffectEcho FloatVal) (L : Nat) (A B : List FloatVal),
      1 ≤ L → Fresh e L → e.decay = FloatVal.fin d → A.length = B.length →
      (∀ v ∈ A, IsFloatValue v) → (∀ v ∈ B, IsFloatValue v) →
      ∃ yA eA yB eB yZ eZ,
        ProcessBlock e A = some (A.length, yA, eA) ∧
        ProcessBlock e B = some (B.length, yB, eB) ∧
        ProcessBlock e (List.zipWith (fun a b => a + c * b) A B) = some (A.length, yZ, eZ) ∧
        ∀ n, n < L → n < A.length → yZ.getD n 0 = yA.getD n 0 + c * yB.getD n 0) ∧
    (∀ (β : Type) [CommSemiring β] (e : EffectEcho β) (L : Nat) (c : β) (A B : List β),
      1 ≤ L → Fresh e L → A.length = B.length →
      ∃ yA eA yB eB yZ eZ,
        ProcessBlock e A = some (A.length, yA, eA) ∧
        ProcessBlock e B = some (B.length, yB, eB) ∧
        ProcessBlock e (List.zipWith (fun a b => a + c * b) A B) = some (A.length, yZ, eZ) ∧
        yZ = List.zipWith (fun a b => a + c * b) yA yB) := by
  constructor
  · intro d c e L A B hL hfresh hd hAB hA hB
    have hZlen : (List.zipWith (fun a b => a + c * b) A B).length = A.length := by
      simp [hAB]
    obtain ⟨yA, eA, hrA, _, hvA⟩ := fresh_head e L A hL hfresh
      (fun v hv => by rw [hd]; exact floatValue_add_zero_mul v (hA v hv) d)
    obtain ⟨yB, eB, hrB, _, hvB⟩ := fresh_head e L B hL hfresh
      (fun v hv => by rw [hd]; exact floatValue_add_zero_mul v (hB v hv) d)
    obtain ⟨yZ, eZ, hrZ, _, hvZ⟩ := fresh_head e L (List.zipWith (fun a b => a + c * b) A B)
      hL hfresh (fun v hv => by
        rw [hd]
        obtain ⟨a, b, rfl⟩ := mem_zipWith_exists _ A B v hv
        exact floatValue_add_zero_mul _ (isFloatValue_add a (c * b)) d)
    rw [hZlen] at hrZ hvZ
    refine ⟨yA, eA, yB, eB, yZ, eZ, hrA, hrB, hrZ, ?_⟩
    intro n hnL hn
    have hnB : n < B.length := by rw [← hAB]; exact hn
    rw [hvZ n hnL hn, hvA n hnL hn, hvB n hnL hnB,
      List.getD_eq_getElem _ _ (by rw [hZlen]; exact hn), List.getD_eq_getElem _ _ hn,
      List.getD_eq_getElem _ _ hnB, List.getElem_zipWith]
  · intro β _ e L c A B hL hfresh hAB
    obtain ⟨yA, eA, yB, eB, yZ, eZ, hA, hB, hZ, hAl, hBl, hZl, hval⟩ :=
      fresh_linear e L c A B hL hfresh hAB
    refine ⟨yA, eA, yB, eB, yZ, eZ, hA, by rw [← hAB]; exact hB, hZ, ?_⟩
    apply list_ext_getD
    · simp [hAl, hBl, hZl]
    · intro n hn
      rw [hZl] at hn
      rw [hval n hn, List.getD_eq_getElem (List.zipWith (fun a b => a + c * b) yA yB) 0
        (by simp [hAl, hBl, hn]), List.getElem_zipWith,
        List.getD_eq_getElem _ _ (by rw [hAl]; exact hn),
        List.getD_eq_getElem _ _ (by rw [hBl]; exact hn)]

/-- Witness for C4 (amended): three cells of history, decay `2`, scalar `-3`, over
the integers. -/
theorem processBlock_linear_witness :
    ∃ yA eA yB eB yZ eZ,
      ProcessBlock (⟨44100, 1, 2, some [0, 0, 0], 0, 3⟩ : EffectEcho ℤ) [1, 2, 3, 4, 5]
        = some (5, yA, eA) ∧
      ProcessBlock (⟨44100, 1, 2, some [0, 0, 0], 0, 3⟩ : EffectEcho ℤ) [7, 0, -1, 2, 4]
        = some (5, yB, eB) ∧
      ProcessBlock (⟨44100, 1, 2, some [0, 0, 0], 0, 3⟩ : EffectEcho ℤ)
        (List.zipWith (fun a b => a + -3 * b) [1, 2, 3, 4, 5] [7, 0, -1, 2, 4])
        = some (5, yZ, eZ) ∧
      yZ = List.zipWith (fun a b => a + -3 * b) yA yB :=
  processBlock_linear.2 ℤ (⟨44100, 1, 2, some [0, 0, 0], 0, 3⟩ : EffectEcho ℤ) 3 (-3)
    [1, 2, 3, 4, 5] [7, 0, -1, 2, 4] (by decide) ⟨rfl, rfl, rfl⟩ rfl

end Echo
